import Mathlib

/-!
# tinysixel: the SIXEL encoder of `sixel.hpp`

A shallow embedding of `SixelImage::print_times`, `SixelImage::escape` and `Sixel::print`,
and what they compute.

* An `int` is a natural number: every `int` of the encoder is non-negative. In the
  definitions that follow the source first, `int` arithmetic is exact. The definitions named
  `…Checked` take the index into `pixels` and the bound of the loop over the bands as a 32-bit
  two's complement `int` computes them (`wrap32`), and check every read of `pixels`: they
  return `none` when a read falls outside the buffer. The two agree when the largest index
  of the buffer, `width * height * 4 - 1`, is at most `INT_MAX` (`escapeChecked_eq`).
* A `float` is an IEEE 754 binary32 value, and every `float` operation is rounded to binary32,
  to nearest, ties to even (`F32`), as on targets that evaluate `float` expressions in
  `float` precision. Only the operations of the encoder are there, on finite non-negative
  values.
* An iterator into `colorpos` is the list of the elements from its position to
  `colorpos.end()`; two iterators are equal when these lists have the same length.
* An output stream is the string written so far.
* The `while` loop over the colour runs takes fuel, one unit per iteration; its result is
  `none` when the fuel runs out.

The definitions of the first part follow the source. Those of the second part describe a band
from the pixels, or observe values inside the loops: the values of `val` (`columnVals`), the
calls of `print_times` (`rleCalls`, `columnCalls`), the colour runs and the iterations of the
`while` loop (`runs`, `runSteps`), the indices read in the buffer, as the `int` computed
(`reads`). The theorems relate the two.
-/

namespace TinySixel

/-! ## Single-precision arithmetic -/

/-- A finite non-negative binary32 value `m * 2 ^ e`, with `m = 0` or `2 ^ 23 ≤ m < 2 ^ 24`.
The exponent is not limited: the encoder stays far from overflow and from subnormals. -/
structure F32 where
  m : Nat
  e : Int
deriving DecidableEq

/-- Round `N / D`, scaled beforehand so that `2 ^ 23 ≤ N / D < 2 ^ 24`, to the nearest integer
significand, ties to even; a carry out of the 24 bits moves to the exponent. -/
def F32.roundTo (N D : Nat) (e : Int) : F32 :=
  let q := N / D
  let r := N % D
  let q := bif Nat.blt D (2 * r) || (Nat.beq (2 * r) D && Nat.beq (q % 2) 1) then q + 1 else q
  bif Nat.beq q (2 ^ 24) then ⟨2 ^ 23, e + 1⟩ else ⟨q, e⟩

/-- Shift the significand left by `s` bits when it still fits in 24 bits. -/
def F32.normStep (s : Nat) (p : Nat × Int) : Nat × Int :=
  bif Nat.blt (p.1 <<< s) (2 ^ 24) then (p.1 <<< s, p.2 - s) else p

/-- Conversion `int → float` of `0 ≤ n < 2 ^ 24`, which is exact. -/
def F32.ofNat (n : Nat) : F32 :=
  bif Nat.beq n 0 then ⟨0, 0⟩ else
    let p := normStep 1 (normStep 2 (normStep 4 (normStep 8 (normStep 16 (n, 0)))))
    ⟨p.1, p.2⟩

/-- Product `a * b` rounded to binary32. -/
def F32.mul (a b : F32) : F32 :=
  bif Nat.beq a.m 0 || Nat.beq b.m 0 then ⟨0, 0⟩ else
    let p := a.m * b.m
    bif Nat.blt p (2 ^ 47) then roundTo p (2 ^ 23) (a.e + b.e + 23)
    else roundTo p (2 ^ 24) (a.e + b.e + 24)

/-- Quotient `a / b` rounded to binary32 (`b` is never zero in the encoder). -/
def F32.div (a b : F32) : F32 :=
  bif Nat.beq a.m 0 || Nat.beq b.m 0 then ⟨0, 0⟩ else
    bif Nat.blt a.m b.m then roundTo (a.m * 2 ^ 24) b.m (a.e - b.e - 24)
    else roundTo (a.m * 2 ^ 23) b.m (a.e - b.e - 23)

/-- Conversion `float → int`: truncation toward zero. -/
def F32.toNat (a : F32) : Nat :=
  match a.e with
  | Int.ofNat k => a.m <<< k
  | Int.negSucc k => a.m >>> (k + 1)

/-- The factor `(alpha / 255.f) * 100 / 255`, evaluated left to right in `float`. -/
def alphaFactor (alpha : Nat) : F32 :=
  F32.div (F32.mul (F32.div (F32.ofNat alpha) (F32.ofNat 255)) (F32.ofNat 100)) (F32.ofNat 255)

/-- The compound assignment `c *= (alpha / 255.f) * 100 / 255` on an `int` channel `c`:
`c` is converted to `float`, multiplied, and the product converted back to `int`. -/
def scale (c alpha : Nat) : Nat :=
  F32.toNat (F32.mul (F32.ofNat c) (alphaFactor alpha))

/-! ## The records of `colorpos` -/

/-- The constant `INT_MAX` of `<climits>` for a 32-bit `int`. -/
def INT_MAX : Nat := 2147483647

/-- An element `{red, green, blue, x, i}` of `colorpos`
(`std::tuple<int, int, int, int, int>`). -/
structure ColorPos where
  red : Nat
  green : Nat
  blue : Nat
  x : Nat
  i : Nat
deriving DecidableEq

/-- The `operator<` of `std::tuple`: lexicographic comparison. -/
def ColorPos.lt (a b : ColorPos) : Prop :=
  a.red < b.red ∨ (a.red = b.red ∧ (a.green < b.green ∨ (a.green = b.green ∧
    (a.blue < b.blue ∨ (a.blue = b.blue ∧ (a.x < b.x ∨ (a.x = b.x ∧ a.i < b.i)))))))

instance ColorPos.decLt : DecidableRel ColorPos.lt := fun a b => by
  unfold ColorPos.lt; infer_instance

/-- Ascending order for `std::sort`: `b` does not compare less than `a`. -/
def ColorPos.le (a b : ColorPos) : Prop := ¬ ColorPos.lt b a

instance ColorPos.decLe : DecidableRel ColorPos.le := fun a b => by
  unfold ColorPos.le; infer_instance

instance ColorPos.le_isTotal : IsTotal ColorPos ColorPos.le :=
  ⟨fun a b => by unfold ColorPos.le ColorPos.lt; omega⟩

instance ColorPos.le_isTrans : IsTrans ColorPos ColorPos.le :=
  ⟨fun a b c h₁ h₂ => by unfold ColorPos.le ColorPos.lt at *; omega⟩

instance ColorPos.lt_isAntisymm : IsAntisymm ColorPos ColorPos.lt :=
  ⟨fun a b h₁ h₂ => by unfold ColorPos.lt at *; omega⟩

/-- The call `std::sort(colorpos.begin(), colorpos.end())`. The order of `std::tuple` is total
and only equal tuples are equivalent, so the result is the one ascending arrangement of the
elements, whatever the algorithm; it is computed here by insertion. -/
def sort (colorpos : List ColorPos) : List ColorPos :=
  colorpos.insertionSort ColorPos.le

/-- The call `std::upper_bound(colorpos.begin(), colorpos.end(), key)` on an ascending range:
the iterator to the first element that `key` compares less than, or the end. -/
def upper_bound : List ColorPos → ColorPos → List ColorPos
  | [], _ => []
  | a :: l, key => if ColorPos.lt key a then a :: l else upper_bound l key

/-! ## `SixelImage::print_times` -/

/-- The call `print_times(os, val, cnt)`: the stream after it. The cases 3 and 2 fall
through. -/
def print_times (os : String) (val cnt : Nat) : String :=
  let os := os ++ "#0"
  let ch := Char.ofNat val
  match cnt with
  | 3 => ((os.push ch).push ch).push ch
  | 2 => (os.push ch).push ch
  | 1 => os.push ch
  | _ => (os ++ "!" ++ toString cnt).push ch

/-! ## `SixelImage::escape` -/

/-- The read `pixels[pos]`; outside the buffer the source has no defined value, here 0. -/
def pixel (pixels : List Nat) (pos : Nat) : Nat := pixels.getD pos 0

/-- The loop `for (int i = 0; i < 6; i++)` of the collect phase for column `x`, from sub-row
`i`, with `n = 6 - i` iterations left: the records pushed to `colorpos`, in order. The index
`pos` is the exact value of `((y + i) * width + x) * 4`; `collectColumnChecked` takes the
value that a 32-bit `int` computes. -/
def collectColumn (width height : Nat) (pixels : List Nat) (y x : Nat) :
    Nat → Nat → List ColorPos
  | 0, _ => []
  | n + 1, i =>
    let pos := ((y + i) * width + x) * 4
    if y + i ≥ height then []
    else
      let red := pixel pixels (pos + 0)
      let green := pixel pixels (pos + 1)
      let blue := pixel pixels (pos + 2)
      let alpha := pixel pixels (pos + 3)
      if alpha = 0 then collectColumn width height pixels y x n (i + 1)
      else
        ⟨scale red alpha, scale green alpha, scale blue alpha, x, i⟩ ::
          collectColumn width height pixels y x n (i + 1)

/-- The loop `for (int x = 0; x < width; x++)` of the collect phase from column `x`, with
`n = width - x` iterations left. -/
def collectFrom (width height : Nat) (pixels : List Nat) (y : Nat) : Nat → Nat → List ColorPos
  | 0, _ => []
  | n + 1, x =>
    collectColumn width height pixels y x 6 0 ++ collectFrom width height pixels y n (x + 1)

/-- The vector `colorpos` of the band with base row `y`, before sorting. -/
def collect (width height : Nat) (pixels : List Nat) (y : Nat) : List ColorPos :=
  collectFrom width height pixels y width 0

/-- The loop `for (; cpit != end_cpit && std::get<3>(*cpit) == x; ++cpit) val |= 1 << i`:
the iterator and `val` after it. At `colorpos.end()` nothing can be read; the loop stops. -/
def scanColumn (end_cpit : List ColorPos) (x : Nat) : List ColorPos → Nat → List ColorPos × Nat
  | [], val => ([], val)
  | c :: cpit, val =>
    if (c :: cpit).length ≠ end_cpit.length ∧ c.x = x then
      scanColumn end_cpit x cpit (val ||| (1 <<< c.i))
    else (c :: cpit, val)

/-- The variables that the loop over the columns of one colour run carries. -/
structure ColumnState where
  cpit : List ColorPos
  val0 : Nat
  cnt : Nat
  ss : String

/-- One iteration of `for (int x = 0; x < width; x++)` of the emit phase. -/
def columnStep (end_cpit : List ColorPos) (x : Nat) (st : ColumnState) : ColumnState :=
  let scanned := scanColumn end_cpit x st.cpit 0
  let val := scanned.2 + 63
  if st.cnt = 0 ∨ val = st.val0 then
    { cpit := scanned.1, val0 := val, cnt := st.cnt + 1, ss := st.ss }
  else
    { cpit := scanned.1, val0 := val, cnt := 1, ss := print_times st.ss st.val0 st.cnt }

/-- The loop `for (int x = 0; x < width; x++)` of the emit phase from column `x`, with
`n = width - x` iterations left. -/
def columnLoop (end_cpit : List ColorPos) : Nat → Nat → ColumnState → ColumnState
  | 0, _, st => st
  | n + 1, x, st => columnLoop end_cpit n (x + 1) (columnStep end_cpit x st)

/-- One iteration of `while (cpit != colorpos.end())`, entered with `cpit = c :: rest`:
the iterator and the stream after it. -/
def emitRun (width : Nat) (colorpos : List ColorPos) (c : ColorPos) (rest : List ColorPos)
    (ss : String) : List ColorPos × String :=
  let end_cpit := upper_bound colorpos ⟨c.red, c.green, c.blue, INT_MAX, INT_MAX⟩
  let ss := if (c :: rest).length ≠ colorpos.length then ss ++ "$" else ss
  let ss := ss ++ "#0;2;" ++ toString c.red ++ ";" ++ toString c.green ++ ";" ++ toString c.blue
  let st := columnLoop end_cpit width 0 ⟨c :: rest, 0, 0, ss⟩
  (st.cpit, print_times st.ss st.val0 st.cnt)

/-- The loop `while (cpit != colorpos.end())`: the stream when it ends, `none` when the fuel
runs out first. -/
def emitRuns (width : Nat) (colorpos : List ColorPos) :
    Nat → List ColorPos → String → Option String
  | _, [], ss => some ss
  | 0, _ :: _, _ => none
  | fuel + 1, c :: rest, ss =>
    let next := emitRun width colorpos c rest ss
    emitRuns width colorpos fuel next.1 next.2

/-- The body of the loop over the bands for band `ny`: the string pushed to `escaped_lines`.
An iteration of the `while` loop that ends consumes a record, so `colorpos.size()` units of
fuel are enough for every run that ends. -/
def band (width height : Nat) (pixels : List Nat) (ny : Nat) : Option String :=
  let y := ny * 6
  let colorpos := sort (collect width height pixels y)
  (emitRuns width colorpos colorpos.length colorpos "").map fun ss => ss ++ "-"

/-- The loop `for (int ny = 0; ny < (height + 5) / 6; ny++)` from band `ny`, with `n` iterations
left, `escaped_lines` being the lines pushed so far. -/
def bandLoop (width height : Nat) (pixels : List Nat) :
    Nat → Nat → List String → Option (List String)
  | 0, _, escaped_lines => some escaped_lines
  | n + 1, ny, escaped_lines =>
    match band width height pixels ny with
    | none => none
    | some line => bandLoop width height pixels n (ny + 1) (escaped_lines ++ [line])

/-- The function `SixelImage::escape(width, height, pixels)`. -/
def escape (width height : Nat) (pixels : List Nat) : Option (List String) :=
  bandLoop width height pixels ((height + 5) / 6) 0
    [";" ++ toString width ++ ";" ++ toString height]

/-! ## Colours and pixels -/

/-- The scaled triple `(red, green, blue)` of a record or of a colour run. -/
abbrev Colour := Nat × Nat × Nat

/-- The colour of a record. -/
def ColorPos.colour (a : ColorPos) : Colour := (a.red, a.green, a.blue)

/-- Lexicographic order on colour triples. -/
def Colour.lt (a b : Colour) : Prop :=
  a.1 < b.1 ∨ (a.1 = b.1 ∧ (a.2.1 < b.2.1 ∨ (a.2.1 = b.2.1 ∧ a.2.2 < b.2.2)))

instance Colour.decLt : DecidableRel Colour.lt := fun a b => by
  unfold Colour.lt; infer_instance

/-- Ascending order on colours: `b` is not below `a`. -/
def Colour.le (a b : Colour) : Prop := ¬ Colour.lt b a

instance Colour.decLe : DecidableRel Colour.le := fun a b => by
  unfold Colour.le; infer_instance

instance Colour.le_isTotal : IsTotal Colour Colour.le :=
  ⟨fun a b => by unfold Colour.le Colour.lt; omega⟩

instance Colour.le_isTrans : IsTrans Colour Colour.le :=
  ⟨fun a b c h₁ h₂ => by unfold Colour.le Colour.lt at *; omega⟩

/-- The alpha byte of the pixel in column `x` of row `row`. -/
def alphaAt (width : Nat) (pixels : List Nat) (x row : Nat) : Nat :=
  pixel pixels ((row * width + x) * 4 + 3)

/-- The scaled colour of the pixel in column `x` of row `row`. -/
def colourAt (width : Nat) (pixels : List Nat) (x row : Nat) : Colour :=
  (scale (pixel pixels ((row * width + x) * 4 + 0)) (alphaAt width pixels x row),
   scale (pixel pixels ((row * width + x) * 4 + 1)) (alphaAt width pixels x row),
   scale (pixel pixels ((row * width + x) * 4 + 2)) (alphaAt width pixels x row))

/-- Sub-row `i` of column `x` in the band with base row `y` carries ink of colour `c`: the row
is inside the image, the pixel is not transparent and its scaled colour is `c`. -/
def inked (width height : Nat) (pixels : List Nat) (y : Nat) (c : Colour) (x i : Nat) : Prop :=
  y + i < height ∧ alphaAt width pixels x (y + i) ≠ 0 ∧ colourAt width pixels x (y + i) = c

instance inked.dec (width height : Nat) (pixels : List Nat) (y : Nat) (c : Colour) (x i : Nat) :
    Decidable (inked width height pixels y c x i) := by
  unfold inked; infer_instance

/-! ## The records of a band, from the pixels -/

/-- The distinct scaled colours of the non-transparent pixels of the band with base row `y`,
in ascending order. -/
def bandColours (width height : Nat) (pixels : List Nat) (y : Nat) : List Colour :=
  (((collect width height pixels y).map ColorPos.colour).dedup).insertionSort Colour.le

/-- The records of colour `c` in column `x`, by ascending sub-row. -/
def segment (width height : Nat) (pixels : List Nat) (y : Nat) (c : Colour) (x : Nat) :
    List ColorPos :=
  ((List.range 6).filter fun i => inked width height pixels y c x i).map
    fun i => ⟨c.1, c.2.1, c.2.2, x, i⟩

/-- The records of colour `c` in the columns `x₀, …, x₀ + n - 1`. -/
def segments (width height : Nat) (pixels : List Nat) (y : Nat) (c : Colour) :
    Nat → Nat → List ColorPos
  | 0, _ => []
  | n + 1, x₀ => segment width height pixels y c x₀ ++ segments width height pixels y c n (x₀ + 1)

/-- The records of the colours `cs`, colour by colour. -/
def groups (width height : Nat) (pixels : List Nat) (y : Nat) : List Colour → List ColorPos
  | [] => []
  | c :: cs => segments width height pixels y c width 0 ++ groups width height pixels y cs

/-! ## What the emit phase computes -/

/-- The values of `val`, after `val += '?'`, that the loop over the columns computes from
column `x` on, with `n = width - x` iterations left and the iterator at `cpit`. -/
def columnVals (end_cpit : List ColorPos) : Nat → Nat → List ColorPos → List Nat
  | 0, _, _ => []
  | n + 1, x, cpit =>
    ((scanColumn end_cpit x cpit 0).2 + 63) ::
      columnVals end_cpit n (x + 1) (scanColumn end_cpit x cpit 0).1

/-- The calls `print_times(ss, val0, cnt)`, as pairs `(val0, cnt)`, that the loop over the
columns and the call after it make when the columns have the values `vals` and the loop starts
from `val0` and `cnt`. -/
def rleCalls : List Nat → Nat → Nat → List (Nat × Nat)
  | [], val0, cnt => [(val0, cnt)]
  | val :: vals, val0, cnt =>
    if cnt = 0 ∨ val = val0 then rleCalls vals val (cnt + 1)
    else (val0, cnt) :: rleCalls vals val 1

/-- What one call `print_times(os, val, cnt)` appends to the stream. -/
def token (val cnt : Nat) : String := print_times "" val cnt

/-- What a sequence of calls of `print_times` appends to the stream. -/
def tokens : List (Nat × Nat) → String
  | [] => ""
  | p :: calls => token p.1 p.2 ++ tokens calls

/-- A colour run as the emit phase goes through it: the colour of its palette directive and
the values of `val`, one per column. -/
structure Run where
  colour : Colour
  vals : List Nat
deriving DecidableEq

/-- The colour runs that the loop `while (cpit != colorpos.end())` goes through, in order,
`none` when the fuel runs out first. -/
def runs (width : Nat) (colorpos : List ColorPos) : Nat → List ColorPos → Option (List Run)
  | _, [] => some []
  | 0, _ :: _ => none
  | fuel + 1, c :: rest =>
    let end_cpit := upper_bound colorpos ⟨c.red, c.green, c.blue, INT_MAX, INT_MAX⟩
    let st := columnLoop end_cpit width 0 ⟨c :: rest, 0, 0, ""⟩
    (runs width colorpos fuel st.cpit).map fun rs =>
      ⟨c.colour, columnVals end_cpit width 0 (c :: rest)⟩ :: rs

/-- The 6-bit mask of colour `c` in column `x` of the band with base row `y`: the sum of `2 ^ i`
over the sub-rows `i` of the column that carry ink of colour `c`. -/
def mask (width height : Nat) (pixels : List Nat) (y : Nat) (c : Colour) (x : Nat) : Nat :=
  (((List.range 6).filter fun i => inked width height pixels y c x i).map fun i => 2 ^ i).sum

/-- The colour run of colour `c` in the band with base row `y`, from the pixels: one value
`63 + mask` per column. -/
def pixelRun (width height : Nat) (pixels : List Nat) (y : Nat) (c : Colour) : Run :=
  ⟨c, (List.range width).map fun x => mask width height pixels y c x + 63⟩

/-- The palette directive `#0;2;r;g;b` of a colour. -/
def palette (c : Colour) : String :=
  "#0;2;" ++ toString c.1 ++ ";" ++ toString c.2.1 ++ ";" ++ toString c.2.2

/-- The text of one colour run: the palette directive, then what the calls of `print_times`
append for the values of the run. -/
def runText (r : Run) : String := palette r.colour ++ tokens (rleCalls r.vals 0 0)

/-- The text of a sequence of colour runs; every run but the first of the band comes after
a `$`. -/
def runsText : Bool → List Run → String
  | _, [] => ""
  | first, r :: rs => (if first then "" else "$") ++ runText r ++ runsText false rs

/-- A well-formed input: a positive width and height that an `int` holds, a buffer of
`width * height * 4` elements, each a `uint8_t`. -/
structure WellFormed (width height : Nat) (pixels : List Nat) : Prop where
  width_pos : 0 < width
  height_pos : 0 < height
  width_le : width ≤ INT_MAX
  height_le : height ≤ INT_MAX
  length_eq : pixels.length = width * height * 4
  byte_lt : ∀ b ∈ pixels, b < 256

/-- The colour runs of band `ny`, from the pixels: one run per colour of the band, in
ascending order of the colour. -/
def pixelRuns (width height : Nat) (pixels : List Nat) (ny : Nat) : List Run :=
  (bandColours width height pixels (ny * 6)).map (pixelRun width height pixels (ny * 6))

/-- The raster-size header `;width;height`. -/
def header (width height : Nat) : String := ";" ++ toString width ++ ";" ++ toString height

/-! ## A check of the colour scaling, value by value -/

/-- The scaled value of channel `c` at alpha `a` is `⌊c * a * 100 / 65025⌋`, except at
`c = 153`, `a = 221`, where the single-precision product falls just below 52. -/
def scaleCheck (a c : Nat) : Bool :=
  Nat.beq (scale c a) (bif Nat.beq c 153 && Nat.beq a 221 then 51 else c * a * 100 / 65025)

/-- The check `scaleCheck a c` for every `c < n`. -/
def scaleCheckRow (a : Nat) : Nat → Bool
  | 0 => true
  | c + 1 => scaleCheck a c && scaleCheckRow a c

/-- The check `scaleCheck a c` for the `n` values `a₀, …, a₀ + n - 1` of `a` and every
`c < 256`. -/
def scaleCheckFrom : Nat → Nat → Bool
  | _, 0 => true
  | a₀, n + 1 => scaleCheckRow a₀ 256 && scaleCheckFrom (a₀ + 1) n

/-! ## Expansion of run lengths -/

/-- A value whose character cannot be taken for a part of a directive. -/
def IsData (val : Nat) : Prop :=
  Char.ofNat val ≠ '!' ∧ Char.ofNat val ≠ '#' ∧ (Char.ofNat val).isDigit = false ∧
    Char.ofNat val ≠ '$' ∧ Char.ofNat val ≠ '-'

instance IsData.dec (val : Nat) : Decidable (IsData val) := by
  unfold IsData; infer_instance

/-! ## Images for the examples -/

/-- An image of one column and seven rows: six opaque white pixels above a transparent one. -/
def whiteColumn : List Nat :=
  [255, 255, 255, 255, 255, 255, 255, 255, 255, 255, 255, 255,
   255, 255, 255, 255, 255, 255, 255, 255, 255, 255, 255, 255, 9, 9, 9, 0]

/-- The 1 × 1 image of one opaque red pixel. -/
def redPixel : List Nat := [255, 0, 0, 255]

/-- The function `Sixel::enter`: the bytes ESC, `P`, `q`, `"`, `1`, `;`, `1`. -/
def enter : String := String.mk [Char.ofNat 27, 'P', 'q', '"', '1', ';', '1']

/-- The function `Sixel::exit`: the bytes ESC and backslash. -/
def exit : String := String.mk [Char.ofNat 27, Char.ofNat 92]

/-- The loop `for (auto &&s : src) os_ << s`: the stream after it. -/
def writeAll (os_ : String) : List String → String
  | [] => os_
  | s :: src => writeAll (os_ ++ s) src

/-- The function `Sixel::print(image)`, `src` being `image.getEscaped()`: the stream `os_`
after the call. The flush writes nothing. -/
def print (os_ : String) (src : List String) : String :=
  writeAll (os_ ++ enter) src ++ exit

/-! ## The encoder with 32-bit `int` and checked reads -/

/-- The value of an `int` expression whose exact value is `z`, for a 32-bit two's complement
`int`: `z` itself when `-2 ^ 31 ≤ z < 2 ^ 31`, and otherwise the number of that range that
differs from `z` by a multiple of `2 ^ 32`. -/
def wrap32 (z : Int) : Int := (z + 2147483648) % 4294967296 - 2147483648

/-- The sum `a + b` of two `int`. -/
def add32 (a b : Int) : Int := wrap32 (a + b)

/-- The product `a * b` of two `int`. -/
def mul32 (a b : Int) : Int := wrap32 (a * b)

/-- The read `pixels[pos]` for an `int` index, with a bounds check: `none` when `pos` is
negative or not below the size of the buffer. -/
def pixelChecked (pixels : List Nat) (pos : Int) : Option Nat :=
  if pos < 0 then none else pixels[pos.toNat]?

/-- The loop `for (int i = 0; i < 6; i++)` of the collect phase as `collectColumn`, with
`y + i` and `pos = ((y + i) * width + x) * 4` computed in `int` and every read of `pixels`
checked: `none` as soon as a read falls outside the buffer. As in the source, `pos` is
computed before the test `y + i >= height`; the four bytes of the pixel are read, then the
sub-rows that follow are gone through. -/
def collectColumnChecked (width height : Nat) (pixels : List Nat) (y x : Nat) :
    Nat → Nat → Option (List ColorPos)
  | 0, _ => some []
  | n + 1, i =>
    let pos := mul32 (add32 (mul32 (add32 y i) width) x) 4
    if add32 y i ≥ height then some []
    else do
      let red ← pixelChecked pixels (add32 pos 0)
      let green ← pixelChecked pixels (add32 pos 1)
      let blue ← pixelChecked pixels (add32 pos 2)
      let alpha ← pixelChecked pixels (add32 pos 3)
      let colorpos ← collectColumnChecked width height pixels y x n (i + 1)
      if alpha = 0 then some colorpos
      else some (⟨scale red alpha, scale green alpha, scale blue alpha, x, i⟩ :: colorpos)

/-- The loop `for (int x = 0; x < width; x++)` of the collect phase as `collectFrom`, with
the indices computed in `int` and every read of `pixels` checked. -/
def collectFromChecked (width height : Nat) (pixels : List Nat) (y : Nat) :
    Nat → Nat → Option (List ColorPos)
  | 0, _ => some []
  | n + 1, x => do
    let column ← collectColumnChecked width height pixels y x 6 0
    let colorpos ← collectFromChecked width height pixels y n (x + 1)
    some (column ++ colorpos)

/-- The vector `colorpos` of the band with base row `y` as `collect`, with the indices
computed in `int` and every read of `pixels` checked. -/
def collectChecked (width height : Nat) (pixels : List Nat) (y : Nat) :
    Option (List ColorPos) :=
  collectFromChecked width height pixels y width 0

/-- The indices, as the `int` values computed, at which the loop
`for (int i = 0; i < 6; i++)` of the collect phase reads `pixels` for column `x`, from
sub-row `i` on, in order. -/
def readsColumn (width height : Nat) (y x : Nat) : Nat → Nat → List Int
  | 0, _ => []
  | n + 1, i =>
    let pos := mul32 (add32 (mul32 (add32 y i) width) x) 4
    if add32 y i ≥ height then []
    else [add32 pos 0, add32 pos 1, add32 pos 2, add32 pos 3] ++
      readsColumn width height y x n (i + 1)

/-- The indices at which the collect phase reads `pixels` from column `x` on. -/
def readsFrom (width height : Nat) (y : Nat) : Nat → Nat → List Int
  | 0, _ => []
  | n + 1, x => readsColumn width height y x 6 0 ++ readsFrom width height y n (x + 1)

/-- The indices at which the collect phase of the band with base row `y` reads `pixels`. -/
def reads (width height : Nat) (y : Nat) : List Int :=
  readsFrom width height y width 0

/-- The body of the loop over the bands for band `ny` as `band`, with the indices computed in
`int` and every read of `pixels` checked: `none` when a read falls outside the buffer or the
fuel of the `while` loop runs out. The base row `ny * 6` is below `height + 5`, which is in
the range of `int` whenever there is a band. -/
def bandChecked (width height : Nat) (pixels : List Nat) (ny : Nat) : Option String := do
  let y := ny * 6
  let collected ← collectChecked width height pixels y
  let colorpos := sort collected
  (emitRuns width colorpos colorpos.length colorpos "").map fun ss => ss ++ "-"

/-- The loop over the bands as `bandLoop`, with `bandChecked` for its body. -/
def bandLoopChecked (width height : Nat) (pixels : List Nat) :
    Nat → Nat → List String → Option (List String)
  | 0, _, escaped_lines => some escaped_lines
  | n + 1, ny, escaped_lines => do
    let line ← bandChecked width height pixels ny
    bandLoopChecked width height pixels n (ny + 1) (escaped_lines ++ [line])

/-- The function `SixelImage::escape(width, height, pixels)` with the indices into `pixels`
and the bound `(height + 5) / 6` of the loop over the bands computed in `int`, the division
truncating, and every read of `pixels` checked: `none` when a read falls outside the buffer.
A bound that is not positive leaves no iteration. -/
def escapeChecked (width height : Nat) (pixels : List Nat) : Option (List String) :=
  bandLoopChecked width height pixels (Int.tdiv (add32 height 5) 6).toNat 0
    [";" ++ toString width ++ ";" ++ toString height]

/-- A buffer of 536870913 × 1 × 4 zero bytes, for an image of width 536870913 and height 1. -/
def largeBuffer : List Nat := List.replicate 2147483652 0

/-- A 3 × 2 image of three colours: red, green, blue above blue, green and a transparent
pixel with the bytes (7, 7, 7). -/
def threeColours : List Nat :=
  [255, 0, 0, 255, 0, 255, 0, 255, 0, 0, 255, 255,
   0, 0, 255, 255, 0, 255, 0, 255, 7, 7, 7, 0]

/-- The calls `print_times(ss, val0, cnt)`, as pairs `(val0, cnt)` in order, that the loop over
the columns makes from column `x` on, with `n = width - x` iterations left and the variables
`st`, followed by the call after the loop. -/
def columnCalls (end_cpit : List ColorPos) : Nat → Nat → ColumnState → List (Nat × Nat)
  | 0, _, st => [(st.val0, st.cnt)]
  | n + 1, x, st =>
    if st.cnt = 0 ∨ (scanColumn end_cpit x st.cpit 0).2 + 63 = st.val0 then
      columnCalls end_cpit n (x + 1) (columnStep end_cpit x st)
    else (st.val0, st.cnt) :: columnCalls end_cpit n (x + 1) (columnStep end_cpit x st)

/-- One iteration of `while (cpit != colorpos.end())` as it is observed: the iterator `cpit`
at its start, the iterator `end_cpit` that `std::upper_bound` returns, the iterator `next`
after the loop over the columns, and the calls of `print_times` as pairs `(val0, cnt)`. -/
structure RunStep where
  cpit : List ColorPos
  end_cpit : List ColorPos
  next : List ColorPos
  calls : List (Nat × Nat)

/-- The iterations of the loop `while (cpit != colorpos.end())`, in order, as far as the fuel
goes. -/
def runSteps (width : Nat) (colorpos : List ColorPos) : Nat → List ColorPos → List RunStep
  | _, [] => []
  | 0, _ :: _ => []
  | fuel + 1, c :: rest =>
    let end_cpit := upper_bound colorpos ⟨c.red, c.green, c.blue, INT_MAX, INT_MAX⟩
    let st := columnLoop end_cpit width 0 ⟨c :: rest, 0, 0, ""⟩
    ⟨c :: rest, end_cpit, st.cpit, columnCalls end_cpit width 0 ⟨c :: rest, 0, 0, ""⟩⟩ ::
      runSteps width colorpos fuel st.cpit

/-- The iterations of the `while` loop over the records of the colours `cs`, from the pixels:
the iteration of a colour starts at its first record and ends at the first record of the next
colour. -/
def groupSteps (width height : Nat) (pixels : List Nat) (y : Nat) : List Colour → List RunStep
  | [] => []
  | c :: cs =>
    ⟨groups width height pixels y (c :: cs), groups width height pixels y cs,
      groups width height pixels y cs, rleCalls (pixelRun width height pixels y c).vals 0 0⟩ ::
      groupSteps width height pixels y cs

/-! ## The run-length rule -/

/-- A character that a fragment may hold: `!`, `#`, `$`, `-`, `;`, a decimal digit, or a data
byte from `?` (63) to `~` (126). -/
def Allowed (ch : Char) : Prop :=
  ch = '!' ∨ ch = '#' ∨ ch = '$' ∨ ch = '-' ∨ ch = ';' ∨ (48 ≤ ch.toNat ∧ ch.toNat ≤ 57) ∨
    (63 ≤ ch.toNat ∧ ch.toNat ≤ 126)

instance Allowed.dec (ch : Char) : Decidable (Allowed ch) := by
  unfold Allowed; infer_instance

/-- A character of the data of a colour run: `!`, `#`, a decimal digit or a data byte. -/
def TokenChar (ch : Char) : Prop :=
  ch = '!' ∨ ch = '#' ∨ (48 ≤ ch.toNat ∧ ch.toNat ≤ 57) ∨ (63 ≤ ch.toNat ∧ ch.toNat ≤ 126)

instance TokenChar.dec (ch : Char) : Decidable (TokenChar ch) := by
  unfold TokenChar; infer_instance

theorem colorPos_lt_irrefl (a : ColorPos) : ¬ ColorPos.lt a a := by
  unfold ColorPos.lt; omega

theorem colorPos_lt_trans {a b c : ColorPos} (h₁ : ColorPos.lt a b) (h₂ : ColorPos.lt b c) :
    ColorPos.lt a c := by
  unfold ColorPos.lt at *; omega

theorem colorPos_lt_of_le_of_ne {a b : ColorPos} (h : ColorPos.le a b) (hne : a ≠ b) :
    ColorPos.lt a b := by
  have hne' : ¬ (a.red = b.red ∧ a.green = b.green ∧ a.blue = b.blue ∧ a.x = b.x ∧ a.i = b.i) := by
    intro h'
    apply hne
    cases a; cases b; simp_all
  unfold ColorPos.le ColorPos.lt at *; omega

theorem sort_perm (l : List ColorPos) : (sort l).Perm l :=
  List.perm_insertionSort _ l

theorem sort_sorted (l : List ColorPos) : (sort l).Pairwise ColorPos.le :=
  List.sorted_insertionSort _ l

theorem sort_pairwise_lt {l : List ColorPos} (h : l.Nodup) : (sort l).Pairwise ColorPos.lt := by
  have hnd : (sort l).Nodup := (sort_perm l).nodup_iff.mpr h
  have := (sort_sorted l).and hnd
  exact this.imp fun ⟨h₁, h₂⟩ => colorPos_lt_of_le_of_ne h₁ h₂

/-! ## The collect phase -/

theorem mem_collectColumn {width height : Nat} {pixels : List Nat} {y x : Nat} (r : ColorPos) :
    ∀ n i₀, r ∈ collectColumn width height pixels y x n i₀ ↔
      r.x = x ∧ i₀ ≤ r.i ∧ r.i < i₀ + n ∧ inked width height pixels y r.colour x r.i := by
  intro n
  induction n with
  | zero =>
    intro i₀
    simp only [collectColumn, List.not_mem_nil, false_iff]
    rintro ⟨_, h₁, h₂, _⟩
    omega
  | succ n ih =>
    intro i₀
    unfold collectColumn
    by_cases hy : y + i₀ ≥ height
    · simp only [hy, if_true, List.not_mem_nil, false_iff]
      rintro ⟨_, h₁, _, h₂, _⟩
      omega
    · simp only [hy, if_false]
      by_cases ha : pixel pixels (((y + i₀) * width + x) * 4 + 3) = 0
      · simp only [ha, if_true, ih]
        constructor
        · rintro ⟨h₁, h₂, h₃, h₄⟩
          exact ⟨h₁, by omega, by omega, h₄⟩
        · rintro ⟨h₁, h₂, h₃, h₄⟩
          refine ⟨h₁, ?_, by omega, h₄⟩
          by_contra hlt
          have : r.i = i₀ := by omega
          rw [this] at h₄
          exact h₄.2.1 ha
      · simp only [ha, if_false, List.mem_cons, ih]
        constructor
        · rintro (h | ⟨h₁, h₂, h₃, h₄⟩)
          · subst h
            exact ⟨rfl, le_refl _, by dsimp only; omega, by dsimp only; omega, ha, rfl⟩
          · exact ⟨h₁, by omega, by omega, h₄⟩
        · rintro ⟨h₁, h₂, h₃, h₄⟩
          by_cases hi : r.i = i₀
          · left
            obtain ⟨_, _, h₅⟩ := h₄
            rw [hi] at h₅
            cases r
            simp only [ColorPos.colour, colourAt, alphaAt, Prod.mk.injEq] at h₅ h₁ hi ⊢
            simp only [ColorPos.mk.injEq]
            omega
          · right
            exact ⟨h₁, by omega, by omega, h₄⟩

theorem pairwise_collectColumn {width height : Nat} {pixels : List Nat} {y x : Nat} :
    ∀ n i₀, (collectColumn width height pixels y x n i₀).Pairwise fun a b => a.i < b.i := by
  intro n
  induction n with
  | zero => intro i₀; simp [collectColumn]
  | succ n ih =>
    intro i₀
    unfold collectColumn
    by_cases hy : y + i₀ ≥ height
    · simp [hy]
    · simp only [hy, if_false]
      by_cases ha : pixel pixels (((y + i₀) * width + x) * 4 + 3) = 0
      · simp only [ha, if_true]
        exact ih _
      · simp only [ha, if_false, List.pairwise_cons]
        refine ⟨?_, ih _⟩
        intro b hb
        have := (mem_collectColumn b n (i₀ + 1)).mp hb
        omega

theorem mem_collectFrom {width height : Nat} {pixels : List Nat} {y : Nat} (r : ColorPos) :
    ∀ n x₀, r ∈ collectFrom width height pixels y n x₀ ↔
      x₀ ≤ r.x ∧ r.x < x₀ + n ∧ r.i < 6 ∧ inked width height pixels y r.colour r.x r.i := by
  intro n
  induction n with
  | zero =>
    intro x₀
    simp only [collectFrom, List.not_mem_nil, false_iff]
    rintro ⟨h₁, h₂, _⟩
    omega
  | succ n ih =>
    intro x₀
    simp only [collectFrom, List.mem_append, mem_collectColumn, ih]
    constructor
    · rintro (⟨h₁, _, h₃, h₄⟩ | ⟨h₁, h₂, h₃, h₄⟩)
      · rw [← h₁] at h₄
        exact ⟨by omega, by omega, by omega, h₄⟩
      · exact ⟨by omega, by omega, h₃, h₄⟩
    · rintro ⟨h₁, h₂, h₃, h₄⟩
      by_cases hx : r.x = x₀
      · left
        rw [hx] at h₄
        exact ⟨hx, by omega, by omega, h₄⟩
      · right
        exact ⟨by omega, by omega, h₃, h₄⟩

theorem pairwise_collectFrom {width height : Nat} {pixels : List Nat} {y : Nat} :
    ∀ n x₀, (collectFrom width height pixels y n x₀).Pairwise
      fun a b => a.x < b.x ∨ (a.x = b.x ∧ a.i < b.i) := by
  intro n
  induction n with
  | zero => intro x₀; simp [collectFrom]
  | succ n ih =>
    intro x₀
    simp only [collectFrom, List.pairwise_append]
    refine ⟨?_, ih _, ?_⟩
    · have h := @pairwise_collectColumn width height pixels y x₀ 6 0
      rw [List.pairwise_iff_forall_sublist] at h ⊢
      intro a b hab
      have ha := (mem_collectColumn a 6 0).mp (hab.subset (by simp))
      have hb := (mem_collectColumn b 6 0).mp (hab.subset (by simp))
      right
      exact ⟨by omega, h hab⟩
    · intro a ha b hb
      have ha := (mem_collectColumn a 6 0).mp ha
      have hb := (mem_collectFrom b n (x₀ + 1)).mp hb
      left
      omega

theorem mem_collect {width height : Nat} {pixels : List Nat} {y : Nat} (r : ColorPos) :
    r ∈ collect width height pixels y ↔
      r.x < width ∧ r.i < 6 ∧ inked width height pixels y r.colour r.x r.i := by
  simp only [collect, mem_collectFrom]
  constructor
  · rintro ⟨_, h₂, h₃, h₄⟩
    exact ⟨by omega, h₃, h₄⟩
  · rintro ⟨h₁, h₂, h₃⟩
    exact ⟨by omega, by omega, h₂, h₃⟩

theorem nodup_collect (width height : Nat) (pixels : List Nat) (y : Nat) :
    (collect width height pixels y).Nodup := by
  have h := @pairwise_collectFrom width height pixels y width 0
  refine h.imp ?_
  intro a b hab heq
  subst heq
  omega

theorem mem_sort_collect {width height : Nat} {pixels : List Nat} {y : Nat} (r : ColorPos) :
    r ∈ sort (collect width height pixels y) ↔
      r.x < width ∧ r.i < 6 ∧ inked width height pixels y r.colour r.x r.i := by
  rw [(sort_perm _).mem_iff, mem_collect]

/-! ## The sorted records, colour by colour and column by column -/

theorem colour_lt_of_le_of_ne {a b : Colour} (h : Colour.le a b) (hne : a ≠ b) :
    Colour.lt a b := by
  have hne' : ¬ (a.1 = b.1 ∧ a.2.1 = b.2.1 ∧ a.2.2 = b.2.2) := by
    intro h'
    apply hne
    obtain ⟨a₁, a₂, a₃⟩ := a
    obtain ⟨b₁, b₂, b₃⟩ := b
    simp_all
  unfold Colour.le Colour.lt at *; omega

theorem mem_bandColours {width height : Nat} {pixels : List Nat} {y : Nat} (c : Colour) :
    c ∈ bandColours width height pixels y ↔
      ∃ x i, x < width ∧ i < 6 ∧ inked width height pixels y c x i := by
  unfold bandColours
  rw [(List.perm_insertionSort _ _).mem_iff, List.mem_dedup, List.mem_map]
  constructor
  · rintro ⟨r, hr, rfl⟩
    have := (mem_collect r).mp hr
    exact ⟨r.x, r.i, this⟩
  · rintro ⟨x, i, hx, hi, h⟩
    exact ⟨⟨c.1, c.2.1, c.2.2, x, i⟩, (mem_collect _).mpr ⟨hx, hi, h⟩, rfl⟩

theorem pairwise_bandColours (width height : Nat) (pixels : List Nat) (y : Nat) :
    (bandColours width height pixels y).Pairwise Colour.lt := by
  have hs : (bandColours width height pixels y).Pairwise Colour.le :=
    List.sorted_insertionSort _ _
  have hnd : (bandColours width height pixels y).Nodup :=
    (List.perm_insertionSort _ _).nodup_iff.mpr (List.nodup_dedup _)
  exact (hs.and hnd).imp fun ⟨h₁, h₂⟩ => colour_lt_of_le_of_ne h₁ h₂

theorem mem_segment {width height : Nat} {pixels : List Nat} {y : Nat} {c : Colour} {x : Nat}
    (r : ColorPos) :
    r ∈ segment width height pixels y c x ↔
      r.colour = c ∧ r.x = x ∧ r.i < 6 ∧ inked width height pixels y c x r.i := by
  simp only [segment, List.mem_map, List.mem_filter, List.mem_range, decide_eq_true_eq]
  constructor
  · rintro ⟨i, ⟨hi, h⟩, rfl⟩
    exact ⟨rfl, rfl, hi, h⟩
  · rintro ⟨h₁, h₂, h₃, h₄⟩
    refine ⟨r.i, ⟨h₃, h₄⟩, ?_⟩
    cases r
    simp only [ColorPos.colour] at h₁ h₂
    subst h₁ h₂
    rfl

theorem pairwise_segment (width height : Nat) (pixels : List Nat) (y : Nat) (c : Colour)
    (x : Nat) : (segment width height pixels y c x).Pairwise ColorPos.lt := by
  unfold segment
  rw [List.pairwise_map]
  refine ((List.pairwise_lt_range 6).filter _).imp ?_
  intro a b hab
  unfold ColorPos.lt
  simp only [lt_self_iff_false, true_and, false_or]
  exact hab

theorem mem_segments {width height : Nat} {pixels : List Nat} {y : Nat} {c : Colour}
    (r : ColorPos) : ∀ n x₀, r ∈ segments width height pixels y c n x₀ ↔
      r.colour = c ∧ x₀ ≤ r.x ∧ r.x < x₀ + n ∧ r.i < 6 ∧ inked width height pixels y c r.x r.i := by
  intro n
  induction n with
  | zero =>
    intro x₀
    simp only [segments, List.not_mem_nil, false_iff]
    rintro ⟨_, h₁, h₂, _⟩
    omega
  | succ n ih =>
    intro x₀
    simp only [segments, List.mem_append, mem_segment, ih]
    constructor
    · rintro (⟨h₁, h₂, h₃, h₄⟩ | ⟨h₁, h₂, h₃, h₄, h₅⟩)
      · rw [← h₂] at h₄
        exact ⟨h₁, by omega, by omega, h₃, h₄⟩
      · exact ⟨h₁, by omega, by omega, h₄, h₅⟩
    · rintro ⟨h₁, h₂, h₃, h₄, h₅⟩
      by_cases hx : r.x = x₀
      · left
        rw [hx] at h₅
        exact ⟨h₁, hx, h₄, h₅⟩
      · right
        exact ⟨h₁, by omega, by omega, h₄, h₅⟩

theorem pairwise_segments (width height : Nat) (pixels : List Nat) (y : Nat) (c : Colour) :
    ∀ n x₀, (segments width height pixels y c n x₀).Pairwise ColorPos.lt := by
  intro n
  induction n with
  | zero => intro x₀; simp [segments]
  | succ n ih =>
    intro x₀
    simp only [segments, List.pairwise_append]
    refine ⟨pairwise_segment _ _ _ _ _ _, ih _, ?_⟩
    intro a ha b hb
    have ha := (mem_segment a).mp ha
    have hb := (mem_segments b n (x₀ + 1)).mp hb
    have h₁ := ha.1
    have h₂ := hb.1
    rw [← h₂] at h₁
    simp only [ColorPos.colour, Prod.mk.injEq] at h₁
    unfold ColorPos.lt
    omega

theorem mem_groups {width height : Nat} {pixels : List Nat} {y : Nat} (r : ColorPos) :
    ∀ cs, r ∈ groups width height pixels y cs ↔
      r.colour ∈ cs ∧ r.x < width ∧ r.i < 6 ∧ inked width height pixels y r.colour r.x r.i := by
  intro cs
  induction cs with
  | nil => simp [groups]
  | cons c cs ih =>
    simp only [groups, List.mem_append, mem_segments, ih, List.mem_cons]
    constructor
    · rintro (⟨h₁, _, h₃, h₄, h₅⟩ | ⟨h₁, h₂, h₃, h₄⟩)
      · rw [← h₁] at h₅
        exact ⟨Or.inl h₁, by omega, h₄, h₅⟩
      · exact ⟨Or.inr h₁, h₂, h₃, h₄⟩
    · rintro ⟨h₁ | h₁, h₂, h₃, h₄⟩
      · left
        rw [h₁] at h₄
        exact ⟨h₁, by omega, by omega, h₃, h₄⟩
      · right
        exact ⟨h₁, h₂, h₃, h₄⟩

theorem pairwise_groups (width height : Nat) (pixels : List Nat) (y : Nat) :
    ∀ cs : List Colour, cs.Pairwise Colour.lt →
      (groups width height pixels y cs).Pairwise ColorPos.lt := by
  intro cs
  induction cs with
  | nil => intro _; simp [groups]
  | cons c cs ih =>
    intro h
    rw [List.pairwise_cons] at h
    simp only [groups, List.pairwise_append]
    refine ⟨pairwise_segments _ _ _ _ _ _ _, ih h.2, ?_⟩
    intro a ha b hb
    have ha := ((mem_segments a width 0).mp ha).1
    have hb := ((mem_groups b cs).mp hb).1
    have hlt := h.1 _ hb
    rw [← ha] at hlt
    unfold Colour.lt ColorPos.colour at hlt
    unfold ColorPos.lt
    simp only at hlt
    omega

/-- After `std::sort`, `colorpos` lists the band's records colour by colour in ascending order
of the colour, and within a colour column by column, sub-row by sub-row. -/
theorem sort_collect_eq (width height : Nat) (pixels : List Nat) (y : Nat) :
    sort (collect width height pixels y) =
      groups width height pixels y (bandColours width height pixels y) := by
  have h₁ : (sort (collect width height pixels y)).Pairwise ColorPos.lt :=
    sort_pairwise_lt (nodup_collect _ _ _ _)
  have h₂ := pairwise_groups width height pixels y _ (pairwise_bandColours width height pixels y)
  have nd : ∀ l : List ColorPos, l.Pairwise ColorPos.lt → l.Nodup := by
    intro l hl
    unfold List.Nodup
    refine hl.imp ?_
    intro a b hab heq
    subst heq
    exact colorPos_lt_irrefl _ hab
  refine List.eq_of_perm_of_sorted ?_ h₁ h₂
  rw [List.perm_ext_iff_of_nodup (nd _ h₁) (nd _ h₂)]
  intro r
  rw [mem_sort_collect, mem_groups, mem_bandColours]
  constructor
  · rintro ⟨h₁, h₂, h₃⟩
    exact ⟨⟨r.x, r.i, h₁, h₂, h₃⟩, h₁, h₂, h₃⟩
  · rintro ⟨_, h⟩
    exact h

/-! ## The emit phase -/

theorem upper_bound_append (key : ColorPos) (post : List ColorPos) :
    ∀ l : List ColorPos, (∀ a ∈ l, ¬ ColorPos.lt key a) → (∀ a ∈ post.head?, ColorPos.lt key a) →
      upper_bound (l ++ post) key = post := by
  intro l
  induction l with
  | nil =>
    intro _ h
    cases post with
    | nil => rfl
    | cons a t => simp [upper_bound, h a (by simp)]
  | cons b l ih =>
    intro h₁ h₂
    have hb : ¬ ColorPos.lt key b := h₁ b (by simp)
    simp only [List.cons_append, upper_bound, hb, if_false]
    exact ih (fun a ha => h₁ a (by simp [ha])) h₂

theorem scanColumn_append (end_cpit rem : List ColorPos) (x : Nat)
    (hlen : end_cpit.length ≤ rem.length)
    (hrem : rem.length = end_cpit.length ∨ ∀ a ∈ rem.head?, a.x ≠ x) :
    ∀ (seg : List ColorPos) (val : Nat), (∀ a ∈ seg, a.x = x) →
      scanColumn end_cpit x (seg ++ rem) val =
        (rem, seg.foldl (fun v a => v ||| (1 <<< a.i)) val) := by
  intro seg
  induction seg with
  | nil =>
    intro val _
    cases rem with
    | nil => rfl
    | cons c t =>
      simp only [List.nil_append, scanColumn, List.foldl_nil]
      rw [if_neg]
      rintro ⟨h₁, h₂⟩
      rcases hrem with h | h
      · exact h₁ h
      · exact h c (by simp) h₂
  | cons a seg ih =>
    intro val h
    have ha : a.x = x := h a (by simp)
    have hl : (a :: (seg ++ rem)).length ≠ end_cpit.length := by
      simp only [List.length_cons, List.length_append]
      omega
    simp only [List.cons_append, scanColumn, List.foldl_cons]
    rw [if_pos ⟨hl, ha⟩]
    exact ih _ (fun b hb => h b (by simp [hb]))

theorem print_times_eq (os : String) (val cnt : Nat) :
    print_times os val cnt = os ++ token val cnt := by
  apply String.ext
  unfold token print_times
  rcases cnt with _ | _ | _ | _ | n <;>
    simp [String.data_append, String.data_push, List.append_assoc]

theorem columnLoop_cpit (end_cpit : List ColorPos) :
    ∀ (n x : Nat) (st : ColumnState),
      (columnLoop end_cpit n x st).cpit = (columnLoop end_cpit n x ⟨st.cpit, 0, 0, ""⟩).cpit := by
  intro n
  induction n with
  | zero => intro x st; rfl
  | succ n ih =>
    intro x st
    simp only [columnLoop]
    rw [ih, ih (x + 1) (columnStep end_cpit x ⟨st.cpit, 0, 0, ""⟩)]
    congr 2
    simp only [columnStep]
    split <;> split <;> rfl

theorem columnLoop_print (end_cpit : List ColorPos) :
    ∀ (n x : Nat) (st : ColumnState),
      print_times (columnLoop end_cpit n x st).ss (columnLoop end_cpit n x st).val0
          (columnLoop end_cpit n x st).cnt =
        st.ss ++ tokens (rleCalls (columnVals end_cpit n x st.cpit) st.val0 st.cnt) := by
  intro n
  induction n with
  | zero =>
    intro x st
    simp only [columnLoop, columnVals, rleCalls, tokens]
    rw [print_times_eq]
    apply String.ext
    simp [String.data_append]
  | succ n ih =>
    intro x st
    simp only [columnLoop, columnVals, rleCalls]
    rw [ih]
    by_cases h : st.cnt = 0 ∨ (scanColumn end_cpit x st.cpit 0).2 + 63 = st.val0
    · simp only [columnStep, h, if_true]
    · simp only [columnStep, h, if_false, tokens]
      rw [print_times_eq, String.append_assoc]

theorem orFold_eq_sum (p : Nat → Bool) :
    ((List.range 6).filter p).foldl (fun v i => v ||| (1 <<< i)) 0 =
      (((List.range 6).filter p).map fun i => 2 ^ i).sum := by
  have h : List.range 6 = [0, 1, 2, 3, 4, 5] := by decide
  rw [h]
  cases h0 : p 0 <;> cases h1 : p 1 <;> cases h2 : p 2 <;> cases h3 : p 3 <;>
    cases h4 : p 4 <;> cases h5 : p 5 <;> simp [List.filter, h0, h1, h2, h3, h4, h5]

theorem segment_foldl (width height : Nat) (pixels : List Nat) (y : Nat) (c : Colour) (x : Nat) :
    (segment width height pixels y c x).foldl (fun v a => v ||| (1 <<< a.i)) 0 =
      mask width height pixels y c x := by
  unfold segment mask
  rw [List.foldl_map]
  exact orFold_eq_sum _

theorem scanColumn_segments (width height : Nat) (pixels : List Nat) (y : Nat) (c : Colour)
    (post : List ColorPos) (n x : Nat) :
    scanColumn post x (segments width height pixels y c (n + 1) x ++ post) 0 =
      (segments width height pixels y c n (x + 1) ++ post, mask width height pixels y c x) := by
  simp only [segments, List.append_assoc]
  rw [scanColumn_append, segment_foldl]
  · simp
  · cases hs : segments width height pixels y c n (x + 1) with
    | nil => left; simp
    | cons a t =>
      right
      intro b hb
      simp only [List.cons_append, List.head?_cons, Option.mem_def, Option.some.injEq] at hb
      subst hb
      have : a ∈ segments width height pixels y c n (x + 1) := by rw [hs]; simp
      have := (mem_segments a n (x + 1)).mp this
      omega
  · intro a ha
    exact ((mem_segment a).mp ha).2.1

theorem columnVals_segments (width height : Nat) (pixels : List Nat) (y : Nat) (c : Colour)
    (post : List ColorPos) : ∀ n x,
      columnVals post n x (segments width height pixels y c n x ++ post) =
        (List.range' x n).map fun x => mask width height pixels y c x + 63 := by
  intro n
  induction n with
  | zero => intro x; rfl
  | succ n ih =>
    intro x
    simp only [columnVals, scanColumn_segments, ih, List.range'_succ, List.map_cons]

theorem columnLoop_segments (width height : Nat) (pixels : List Nat) (y : Nat) (c : Colour)
    (post : List ColorPos) : ∀ n x,
      (columnLoop post n x ⟨segments width height pixels y c n x ++ post, 0, 0, ""⟩).cpit =
        post := by
  intro n
  induction n with
  | zero => intro x; rfl
  | succ n ih =>
    intro x
    simp only [columnLoop]
    rw [columnLoop_cpit]
    simp only [columnStep, scanColumn_segments]
    split <;> exact ih _

theorem groups_append (width height : Nat) (pixels : List Nat) (y : Nat) (cs₁ cs₂ : List Colour) :
    groups width height pixels y (cs₁ ++ cs₂) =
      groups width height pixels y cs₁ ++ groups width height pixels y cs₂ := by
  induction cs₁ with
  | nil => rfl
  | cons c cs ih =>
    show groups width height pixels y (c :: (cs ++ cs₂)) = _
    simp only [groups, ih, List.append_assoc]

theorem segments_ne_nil {width height : Nat} {pixels : List Nat} {y : Nat} {c : Colour}
    (h : c ∈ bandColours width height pixels y) :
    ∃ c₀ rest, segments width height pixels y c width 0 = c₀ :: rest ∧ c₀.colour = c := by
  obtain ⟨x, i, hx, hi, hink⟩ := (mem_bandColours c).mp h
  have hm : (⟨c.1, c.2.1, c.2.2, x, i⟩ : ColorPos) ∈ segments width height pixels y c width 0 :=
    (mem_segments _ width 0).mpr ⟨rfl, Nat.zero_le _, by simpa using hx, hi, hink⟩
  cases hs : segments width height pixels y c width 0 with
  | nil => rw [hs] at hm; simp at hm
  | cons c₀ rest =>
    refine ⟨c₀, rest, rfl, ?_⟩
    have : c₀ ∈ segments width height pixels y c width 0 := by rw [hs]; simp
    exact ((mem_segments c₀ width 0).mp this).1

theorem groups_length_pos {width height : Nat} {pixels : List Nat} {y : Nat} :
    ∀ cs : List Colour, cs ≠ [] → (∀ c ∈ cs, c ∈ bandColours width height pixels y) →
      0 < (groups width height pixels y cs).length := by
  intro cs hne hcs
  cases cs with
  | nil => exact absurd rfl hne
  | cons c cs =>
    obtain ⟨c₀, rest, hseg, _⟩ := segments_ne_nil (hcs c (by simp))
    simp [groups, hseg]

theorem length_le_groups {width height : Nat} {pixels : List Nat} {y : Nat} :
    ∀ cs : List Colour, (∀ c ∈ cs, c ∈ bandColours width height pixels y) →
      cs.length ≤ (groups width height pixels y cs).length := by
  intro cs
  induction cs with
  | nil => intro _; simp
  | cons c cs ih =>
    intro hcs
    obtain ⟨c₀, rest, hseg, _⟩ := segments_ne_nil (hcs c (by simp))
    have := ih (fun d hd => hcs d (by simp [hd]))
    simp only [groups, hseg, List.length_cons, List.length_append]
    omega

theorem runs_groups {width height : Nat} {pixels : List Nat} {y : Nat} (hw : width ≤ INT_MAX) :
    ∀ (cs pre : List Colour) (fuel : Nat), (pre ++ cs).Pairwise Colour.lt →
      (∀ c ∈ pre ++ cs, c ∈ bandColours width height pixels y) → cs.length ≤ fuel →
      runs width (groups width height pixels y (pre ++ cs)) fuel
          (groups width height pixels y cs) =
        some (cs.map (pixelRun width height pixels y)) ∧
      ∀ ss, emitRuns width (groups width height pixels y (pre ++ cs)) fuel
          (groups width height pixels y cs) ss =
        some (ss ++ runsText (decide (pre = [])) (cs.map (pixelRun width height pixels y))) := by
  intro cs
  induction cs with
  | nil =>
    intro pre fuel _ _ _
    constructor
    · cases fuel <;> rfl
    · intro ss
      have : ss ++ "" = ss := by apply String.ext; simp [String.data_append]
      cases fuel <;> simp [groups, emitRuns, runsText, this]
  | cons c cs ih =>
    intro pre fuel hpw hmem hfuel
    obtain ⟨c₀, rest, hseg, hcol⟩ := segments_ne_nil (hmem c (by simp))
    obtain ⟨fuel, rfl⟩ : ∃ f, fuel = f + 1 := ⟨fuel - 1, by simp at hfuel; omega⟩
    have hpre : pre ++ c :: cs = (pre ++ [c]) ++ cs := by simp
    have hS : groups width height pixels y (pre ++ c :: cs) =
        (groups width height pixels y pre ++ segments width height pixels y c width 0) ++
          groups width height pixels y cs := by
      simp only [groups_append, groups, List.append_assoc]
    have hcur : c₀ :: (rest ++ groups width height pixels y cs) =
        segments width height pixels y c width 0 ++ groups width height pixels y cs := by
      rw [hseg]; rfl
    have hc : (c₀.red, c₀.green, c₀.blue) = c := hcol
    have hub : upper_bound (groups width height pixels y (pre ++ c :: cs))
        ⟨c₀.red, c₀.green, c₀.blue, INT_MAX, INT_MAX⟩ = groups width height pixels y cs := by
      rw [hS]
      apply upper_bound_append
      · intro a ha
        rw [List.mem_append] at ha
        rcases ha with ha | ha
        · have hac := ((mem_groups a pre).mp ha).1
          have hlt : Colour.lt a.colour c :=
            (List.pairwise_append.mp hpw).2.2 _ hac c (by simp)
          rw [← hc] at hlt
          unfold Colour.lt ColorPos.colour at hlt
          unfold ColorPos.lt
          simp only at hlt ⊢
          omega
        · have ha' := (mem_segments a width 0).mp ha
          have hac := ha'.1
          rw [← hc] at hac
          simp only [ColorPos.colour, Prod.mk.injEq] at hac
          unfold ColorPos.lt
          simp only [INT_MAX] at hw ⊢
          omega
      · intro a ha
        have ham : a ∈ groups width height pixels y cs := List.mem_of_mem_head? ha
        have hac := ((mem_groups a cs).mp ham).1
        have hlt : Colour.lt c a.colour :=
          (List.pairwise_cons.mp (List.pairwise_append.mp hpw).2.1).1 _ hac
        rw [← hc] at hlt
        unfold Colour.lt ColorPos.colour at hlt
        unfold ColorPos.lt
        simp only at hlt ⊢
        omega
    have hih := ih (pre ++ [c]) fuel (by rw [← hpre]; exact hpw)
      (by rw [← hpre]; exact hmem) (by simp at hfuel; omega)
    rw [← hpre] at hih
    have hvals : columnVals (groups width height pixels y cs) width 0
        (c₀ :: (rest ++ groups width height pixels y cs)) =
          (pixelRun width height pixels y c).vals := by
      rw [hcur, columnVals_segments, pixelRun, List.range_eq_range']
    have hcp : ∀ st : ColumnState, st.cpit = c₀ :: (rest ++ groups width height pixels y cs) →
        (columnLoop (groups width height pixels y cs) width 0 st).cpit =
          groups width height pixels y cs := by
      intro st hst
      rw [columnLoop_cpit, hst, hcur, columnLoop_segments]
    have hgc : groups width height pixels y (c :: cs) =
        c₀ :: (rest ++ groups width height pixels y cs) := by
      rw [hcur]; rfl
    constructor
    · rw [hgc]
      simp only [runs, hub]
      rw [hcp _ rfl, hih.1, hvals]
      simp only [Option.map_some', List.map_cons, ColorPos.colour, hc]
      rfl
    · intro ss
      rw [hgc]
      simp only [emitRuns, emitRun, hub]
      rw [hcp _ rfl, hih.2, columnLoop_print]
      simp only [hvals]
      congr 1
      have hempty : ss ++ "" = ss := by apply String.ext; simp [String.data_append]
      have hdollar : (if (c₀ :: (rest ++ groups width height pixels y cs)).length ≠
          (groups width height pixels y (pre ++ c :: cs)).length then ss ++ "$" else ss) =
            ss ++ (if decide (pre = []) = true then "" else "$") := by
        rw [hS, hseg]
        by_cases hp : pre = []
        · subst hp
          simp [groups, hempty]
        · have := groups_length_pos pre hp (fun d hd => hmem d (by simp [hd]))
          have hne : (c₀ :: (rest ++ groups width height pixels y cs)).length ≠
              (groups width height pixels y pre ++ c₀ :: rest ++
                groups width height pixels y cs).length := by
            simp only [List.length_append, List.length_cons]
            omega
          rw [if_pos hne]
          simp [hp]
      have hfalse : decide (pre ++ [c] = []) = false := by simp
      rw [hdollar, hfalse]
      subst hc
      simp only [List.map_cons, runsText, runText, palette, pixelRun, String.append_assoc]

/-! ## Bands and fragments -/

theorem band_eq {width : Nat} (height : Nat) (pixels : List Nat) (ny : Nat)
    (hw : width ≤ INT_MAX) :
    band width height pixels ny =
      some (runsText true (pixelRuns width height pixels ny) ++ "-") := by
  have h := @runs_groups width height pixels (ny * 6) hw
    (bandColours width height pixels (ny * 6)) [] _
    (by simpa using pairwise_bandColours width height pixels (ny * 6))
    (by simp) (length_le_groups _ (fun _ hc => hc))
  simp only [List.nil_append] at h
  unfold band
  simp only [sort_collect_eq]
  rw [h.2 ""]
  have : "" ++ runsText true (pixelRuns width height pixels ny) =
      runsText true (pixelRuns width height pixels ny) := by
    apply String.ext; simp [String.data_append]
  simp only [Option.map_some', decide_True, pixelRuns] at this ⊢
  rw [this]

theorem bandLoop_eq {width height : Nat} {pixels : List Nat} (f : Nat → String)
    (hf : ∀ ny, band width height pixels ny = some (f ny)) :
    ∀ (n ny : Nat) (escaped_lines : List String),
      bandLoop width height pixels n ny escaped_lines =
        some (escaped_lines ++ (List.range' ny n).map f) := by
  intro n
  induction n with
  | zero => intro ny acc; simp [bandLoop]
  | succ n ih =>
    intro ny acc
    simp only [bandLoop, hf, ih, List.range'_succ, List.map_cons, List.append_assoc,
      List.singleton_append]

theorem escape_eq {width : Nat} (height : Nat) (pixels : List Nat) (hw : width ≤ INT_MAX) :
    escape width height pixels =
      some (header width height ::
        (List.range ((height + 5) / 6)).map fun ny =>
          runsText true (pixelRuns width height pixels ny) ++ "-") := by
  unfold escape
  rw [bandLoop_eq _ (fun ny => band_eq height pixels ny hw), List.range_eq_range']
  rfl

/-! ## Colour scaling -/

theorem scaleCheckRow_spec (a : Nat) :
    ∀ n, scaleCheckRow a n = true → ∀ c, c < n → scaleCheck a c = true := by
  intro n
  induction n with
  | zero => intro _ c hc; omega
  | succ n ih =>
    intro h c hc
    simp only [scaleCheckRow, Bool.and_eq_true] at h
    by_cases hcn : c = n
    · subst hcn; exact h.1
    · exact ih h.2 c (by omega)

theorem scaleCheckFrom_spec : ∀ n a₀, scaleCheckFrom a₀ n = true →
    ∀ a, a₀ ≤ a → a < a₀ + n → ∀ c, c < 256 → scaleCheck a c = true := by
  intro n
  induction n with
  | zero => intro a₀ _ a h₁ h₂; omega
  | succ n ih =>
    intro a₀ h a h₁ h₂ c hc
    simp only [scaleCheckFrom, Bool.and_eq_true] at h
    by_cases ha : a = a₀
    · subst ha; exact scaleCheckRow_spec a 256 h.1 c hc
    · exact ih (a₀ + 1) h.2 a (by omega) (by omega) c hc

theorem scaleCheck_rows_0 : scaleCheckFrom 0 16 = true := by decide!

theorem scaleCheck_rows_16 : scaleCheckFrom 16 16 = true := by decide!

theorem scaleCheck_rows_32 : scaleCheckFrom 32 16 = true := by decide!

theorem scaleCheck_rows_48 : scaleCheckFrom 48 16 = true := by decide!

theorem scaleCheck_rows_64 : scaleCheckFrom 64 16 = true := by decide!

theorem scaleCheck_rows_80 : scaleCheckFrom 80 16 = true := by decide!

theorem scaleCheck_rows_96 : scaleCheckFrom 96 16 = true := by decide!

theorem scaleCheck_rows_112 : scaleCheckFrom 112 16 = true := by decide!

theorem scaleCheck_rows_128 : scaleCheckFrom 128 16 = true := by decide!

theorem scaleCheck_rows_144 : scaleCheckFrom 144 16 = true := by decide!

theorem scaleCheck_rows_160 : scaleCheckFrom 160 16 = true := by decide!

theorem scaleCheck_rows_176 : scaleCheckFrom 176 16 = true := by decide!

theorem scaleCheck_rows_192 : scaleCheckFrom 192 16 = true := by decide!

theorem scaleCheck_rows_208 : scaleCheckFrom 208 16 = true := by decide!

theorem scaleCheck_rows_224 : scaleCheckFrom 224 16 = true := by decide!

theorem scaleCheck_rows_240 : scaleCheckFrom 240 16 = true := by decide!

theorem scaleCheck_all {a c : Nat} (ha : a < 256) (hc : c < 256) : scaleCheck a c = true := by
  by_cases h0 : a < 16
  · exact scaleCheckFrom_spec 16 0 scaleCheck_rows_0 a (by omega) (by omega) c hc
  by_cases h1 : a < 32
  · exact scaleCheckFrom_spec 16 16 scaleCheck_rows_16 a (by omega) (by omega) c hc
  by_cases h2 : a < 48
  · exact scaleCheckFrom_spec 16 32 scaleCheck_rows_32 a (by omega) (by omega) c hc
  by_cases h3 : a < 64
  · exact scaleCheckFrom_spec 16 48 scaleCheck_rows_48 a (by omega) (by omega) c hc
  by_cases h4 : a < 80
  · exact scaleCheckFrom_spec 16 64 scaleCheck_rows_64 a (by omega) (by omega) c hc
  by_cases h5 : a < 96
  · exact scaleCheckFrom_spec 16 80 scaleCheck_rows_80 a (by omega) (by omega) c hc
  by_cases h6 : a < 112
  · exact scaleCheckFrom_spec 16 96 scaleCheck_rows_96 a (by omega) (by omega) c hc
  by_cases h7 : a < 128
  · exact scaleCheckFrom_spec 16 112 scaleCheck_rows_112 a (by omega) (by omega) c hc
  by_cases h8 : a < 144
  · exact scaleCheckFrom_spec 16 128 scaleCheck_rows_128 a (by omega) (by omega) c hc
  by_cases h9 : a < 160
  · exact scaleCheckFrom_spec 16 144 scaleCheck_rows_144 a (by omega) (by omega) c hc
  by_cases h10 : a < 176
  · exact scaleCheckFrom_spec 16 160 scaleCheck_rows_160 a (by omega) (by omega) c hc
  by_cases h11 : a < 192
  · exact scaleCheckFrom_spec 16 176 scaleCheck_rows_176 a (by omega) (by omega) c hc
  by_cases h12 : a < 208
  · exact scaleCheckFrom_spec 16 192 scaleCheck_rows_192 a (by omega) (by omega) c hc
  by_cases h13 : a < 224
  · exact scaleCheckFrom_spec 16 208 scaleCheck_rows_208 a (by omega) (by omega) c hc
  by_cases h14 : a < 240
  · exact scaleCheckFrom_spec 16 224 scaleCheck_rows_224 a (by omega) (by omega) c hc
  by_cases h15 : a < 256
  · exact scaleCheckFrom_spec 16 240 scaleCheck_rows_240 a (by omega) (by omega) c hc
  omega

theorem nat_beq_eq_decide (m n : Nat) : Nat.beq m n = decide (m = n) := by
  cases h : Nat.beq m n
  · exact (decide_eq_false (Nat.ne_of_beq_eq_false h)).symm
  · exact (decide_eq_true (Nat.eq_of_beq_eq_true h)).symm

theorem scale_eq {c a : Nat} (hc : c < 256) (ha : a < 256) :
    scale c a = if c = 153 ∧ a = 221 then 51 else c * a * 100 / 65025 := by
  have h := scaleCheck_all ha hc
  unfold scaleCheck at h
  have h' := Nat.eq_of_beq_eq_true h
  rw [h']
  by_cases h₁ : c = 153 <;> by_cases h₂ : a = 221 <;> simp [nat_beq_eq_decide, h₁, h₂]

theorem string_data_getLast (s : String) : (s ++ "-").data.getLast? = some '-' := by
  simp [String.data_append]

theorem writeAll_data : ∀ (src : List String) (os_ : String),
    (writeAll os_ src).data = os_.data ++ (src.map String.data).flatten := by
  intro src
  induction src with
  | nil => intro os_; simp [writeAll]
  | cons s src ih =>
    intro os_
    simp [writeAll, ih, String.data_append]

/-! ## Inputs without columns or rows -/

theorem index_lt {width height x row k : Nat} (hx : x < width) (hrow : row < height)
    (hk : k ≤ 3) : (row * width + x) * 4 + k < width * height * 4 := by
  have h₁ : row * width + x < (row + 1) * width := by
    rw [Nat.add_mul, Nat.one_mul]; omega
  have h₂ : (row + 1) * width ≤ height * width := Nat.mul_le_mul_right _ hrow
  have h₃ : height * width = width * height := Nat.mul_comm _ _
  omega

theorem wrap32_natCast (n : Nat) (h : n ≤ INT_MAX) : wrap32 (n : Int) = (n : Int) := by
  unfold INT_MAX at h
  unfold wrap32
  omega

theorem add32_natCast (a b : Nat) (h : a + b ≤ INT_MAX) :
    add32 (a : Int) (b : Int) = ((a + b : Nat) : Int) := by
  unfold add32
  rw [← Nat.cast_add]
  exact wrap32_natCast _ h

theorem mul32_natCast (a b : Nat) (h : a * b ≤ INT_MAX) :
    mul32 (a : Int) (b : Int) = ((a * b : Nat) : Int) := by
  unfold mul32
  rw [← Nat.cast_mul]
  exact wrap32_natCast _ h

/-- The index of a read inside the image, as computed in `int`, is the exact index when the
largest index of the buffer is in the range of `int`. -/
theorem index32_eq {width height x row k : Nat} (hx : x < width) (hrow : row < height)
    (hk : k ≤ 3) (hfit : width * height * 4 - 1 ≤ INT_MAX) :
    add32 (mul32 (add32 (mul32 (row : Int) width) x) 4) (k : Int) =
      (((row * width + x) * 4 + k : Nat) : Int) := by
  have hlt := index_lt hx hrow hk
  have h₁ : row * width ≤ row * width + x := Nat.le_add_right _ _
  have h₂ : row * width + x ≤ (row * width + x) * 4 := Nat.le_mul_of_pos_right _ (by decide)
  rw [mul32_natCast _ _ (by omega), add32_natCast _ _ (by omega),
    show (4 : Int) = ((4 : Nat) : Int) from rfl, mul32_natCast _ _ (by omega),
    add32_natCast _ _ (by omega)]

theorem height_le_of_fit {width height : Nat} (hw : 0 < width)
    (hfit : width * height * 4 - 1 ≤ INT_MAX) : height + 11 ≤ INT_MAX := by
  have h₁ : height ≤ width * height := Nat.le_mul_of_pos_left _ hw
  unfold INT_MAX at *
  omega

theorem base_row_le {height ny : Nat} (hny : ny < (height + 5) / 6) : ny * 6 + 6 ≤ height + 5 := by
  omega

theorem mem_readsColumn {width height y x : Nat} (hx : x < width)
    (hfit : width * height * 4 - 1 ≤ INT_MAX) (p : Int) :
    ∀ n i₀, y + i₀ + n ≤ INT_MAX → p ∈ readsColumn width height y x n i₀ →
      ∃ i k, i₀ ≤ i ∧ i < i₀ + n ∧ y + i < height ∧ k ≤ 3 ∧
        p = ((((y + i) * width + x) * 4 + k : Nat) : Int) := by
  intro n
  induction n with
  | zero => intro i₀ _ h; simp [readsColumn] at h
  | succ n ih =>
    intro i₀ hb h
    rw [readsColumn] at h
    have hadd : add32 (y : Int) (i₀ : Int) = ((y + i₀ : Nat) : Int) :=
      add32_natCast _ _ (by omega)
    rw [hadd] at h
    by_cases hy : y + i₀ ≥ height
    · have hy' : ((y + i₀ : Nat) : Int) ≥ (height : Int) := Int.ofNat_le.mpr hy
      rw [if_pos hy'] at h
      exact absurd h (List.not_mem_nil _)
    · have hy' : ¬ ((y + i₀ : Nat) : Int) ≥ (height : Int) := fun hc => hy (Int.ofNat_le.mp hc)
      have hrow : y + i₀ < height := by omega
      rw [if_neg hy'] at h
      simp only [List.mem_append, List.mem_cons, List.not_mem_nil, or_false] at h
      rcases h with (h | h | h | h) | h
      · exact ⟨i₀, 0, le_refl _, by omega, hrow, by omega,
          h.trans (@index32_eq width height x (y + i₀) 0 hx hrow (by omega) hfit)⟩
      · exact ⟨i₀, 1, le_refl _, by omega, hrow, by omega,
          h.trans (@index32_eq width height x (y + i₀) 1 hx hrow (by omega) hfit)⟩
      · exact ⟨i₀, 2, le_refl _, by omega, hrow, by omega,
          h.trans (@index32_eq width height x (y + i₀) 2 hx hrow (by omega) hfit)⟩
      · exact ⟨i₀, 3, le_refl _, by omega, hrow, by omega,
          h.trans (@index32_eq width height x (y + i₀) 3 hx hrow (by omega) hfit)⟩
      · obtain ⟨i, k, h₁, h₂, h₃, h₄, h₅⟩ := ih _ (by omega) h
        exact ⟨i, k, by omega, by omega, h₃, h₄, h₅⟩

theorem mem_readsFrom {width height y : Nat} (hfit : width * height * 4 - 1 ≤ INT_MAX)
    (hy : y + 6 ≤ INT_MAX) (p : Int) :
    ∀ n x₀, x₀ + n ≤ width → p ∈ readsFrom width height y n x₀ →
      ∃ x i k, x₀ ≤ x ∧ x < x₀ + n ∧ i < 6 ∧ y + i < height ∧ k ≤ 3 ∧
        p = ((((y + i) * width + x) * 4 + k : Nat) : Int) := by
  intro n
  induction n with
  | zero => intro x₀ _ h; simp [readsFrom] at h
  | succ n ih =>
    intro x₀ hb h
    simp only [readsFrom, List.mem_append] at h
    rcases h with h | h
    · obtain ⟨i, k, _, h₂, h₃, h₄, h₅⟩ :=
        mem_readsColumn (show x₀ < width by omega) hfit p 6 0 (by omega) h
      exact ⟨x₀, i, k, le_refl _, by omega, by omega, h₃, h₄, h₅⟩
    · obtain ⟨x, i, k, h₁, h₂, h₃, h₄, h₅, h₆⟩ := ih _ (by omega) h
      exact ⟨x, i, k, by omega, by omega, h₃, h₄, h₅, h₆⟩

theorem pixelChecked_eq {pixels : List Nat} {pos : Nat} (h : pos < pixels.length) :
    pixelChecked pixels (pos : Int) = some (pixel pixels pos) := by
  have h₀ : ¬ ((pos : Int) < 0) := by omega
  unfold pixelChecked pixel
  rw [if_neg h₀, Int.toNat_ofNat, List.getElem?_eq_getElem h, List.getD_eq_getElem _ _ h]

theorem collectColumnChecked_eq {width height : Nat} {pixels : List Nat} {y x : Nat}
    (hx : x < width) (hlen : pixels.length = width * height * 4)
    (hfit : width * height * 4 - 1 ≤ INT_MAX) :
    ∀ n i, y + i + n ≤ INT_MAX → collectColumnChecked width height pixels y x n i =
      some (collectColumn width height pixels y x n i) := by
  intro n
  induction n with
  | zero => intro i _; rfl
  | succ n ih =>
    intro i hb
    rw [collectColumnChecked, collectColumn]
    have hadd : add32 (y : Int) (i : Int) = ((y + i : Nat) : Int) :=
      add32_natCast _ _ (by omega)
    rw [hadd]
    by_cases hy : y + i ≥ height
    · have hy' : ((y + i : Nat) : Int) ≥ (height : Int) := Int.ofNat_le.mpr hy
      rw [if_pos hy', if_pos hy]
    · have hy' : ¬ ((y + i : Nat) : Int) ≥ (height : Int) := fun hc => hy (Int.ofNat_le.mp hc)
      have hrow : y + i < height := by omega
      have hk : ∀ k, k ≤ 3 → ((y + i) * width + x) * 4 + k < pixels.length := by
        intro k hk
        rw [hlen]
        exact index_lt hx hrow hk
      have h0 : add32 (mul32 (add32 (mul32 ((y + i : Nat) : Int) width) x) 4) 0 =
          ((((y + i) * width + x) * 4 + 0 : Nat) : Int) :=
        @index32_eq width height x (y + i) 0 hx hrow (by omega) hfit
      have h1 : add32 (mul32 (add32 (mul32 ((y + i : Nat) : Int) width) x) 4) 1 =
          ((((y + i) * width + x) * 4 + 1 : Nat) : Int) :=
        @index32_eq width height x (y + i) 1 hx hrow (by omega) hfit
      have h2 : add32 (mul32 (add32 (mul32 ((y + i : Nat) : Int) width) x) 4) 2 =
          ((((y + i) * width + x) * 4 + 2 : Nat) : Int) :=
        @index32_eq width height x (y + i) 2 hx hrow (by omega) hfit
      have h3 : add32 (mul32 (add32 (mul32 ((y + i : Nat) : Int) width) x) 4) 3 =
          ((((y + i) * width + x) * 4 + 3 : Nat) : Int) :=
        @index32_eq width height x (y + i) 3 hx hrow (by omega) hfit
      rw [if_neg hy', if_neg hy]
      simp only [h0, h1, h2, h3, pixelChecked_eq (hk 0 (by omega)),
        pixelChecked_eq (hk 1 (by omega)), pixelChecked_eq (hk 2 (by omega)),
        pixelChecked_eq (hk 3 (by omega)), ih (i + 1) (by omega), Option.bind_eq_bind,
        Option.some_bind]
      split <;> rfl

theorem collectFromChecked_eq {width height : Nat} {pixels : List Nat} {y : Nat}
    (hlen : pixels.length = width * height * 4) (hfit : width * height * 4 - 1 ≤ INT_MAX)
    (hy : y + 6 ≤ INT_MAX) :
    ∀ n x, x + n ≤ width → collectFromChecked width height pixels y n x =
      some (collectFrom width height pixels y n x) := by
  intro n
  induction n with
  | zero => intro x _; rfl
  | succ n ih =>
    intro x hx
    have hcol : collectColumnChecked width height pixels y x 6 0 =
        some (collectColumn width height pixels y x 6 0) :=
      @collectColumnChecked_eq width height pixels y x (by omega) hlen hfit 6 0 (by omega)
    simp only [collectFromChecked, collectFrom, hcol, ih (x + 1) (by omega),
      Option.bind_eq_bind, Option.some_bind]

/-- When the largest index of the buffer is in the range of `int`, the collect phase with
`int` indices and checked reads returns the records of `collect`. -/
theorem collectChecked_eq {width height : Nat} {pixels : List Nat} (hw : 0 < width)
    (hlen : pixels.length = width * height * 4) (hfit : width * height * 4 - 1 ≤ INT_MAX)
    {ny : Nat} (hny : ny < (height + 5) / 6) :
    collectChecked width height pixels (ny * 6) =
      some (collect width height pixels (ny * 6)) := by
  have h₁ := height_le_of_fit hw hfit
  have h₂ := base_row_le hny
  exact collectFromChecked_eq hlen hfit (by omega) width 0 (by omega)

theorem bandChecked_eq {width height : Nat} {pixels : List Nat} (hw : 0 < width)
    (hlen : pixels.length = width * height * 4) (hfit : width * height * 4 - 1 ≤ INT_MAX)
    {ny : Nat} (hny : ny < (height + 5) / 6) :
    bandChecked width height pixels ny = band width height pixels ny := by
  unfold bandChecked band
  simp only [collectChecked_eq hw hlen hfit hny, Option.bind_eq_bind, Option.some_bind]

theorem bandLoopChecked_eq {width height : Nat} {pixels : List Nat} (bands : Nat)
    (h : ∀ ny, ny < bands → bandChecked width height pixels ny = band width height pixels ny) :
    ∀ n ny acc, ny + n ≤ bands →
      bandLoopChecked width height pixels n ny acc = bandLoop width height pixels n ny acc := by
  intro n
  induction n with
  | zero => intro ny acc _; rfl
  | succ n ih =>
    intro ny acc hb
    simp only [bandLoopChecked, bandLoop, h ny (by omega), Option.bind_eq_bind]
    cases band width height pixels ny with
    | none => rfl
    | some line => exact ih _ _ (by omega)

theorem bands32_eq {width height : Nat} (hw : 0 < width)
    (hfit : width * height * 4 - 1 ≤ INT_MAX) :
    (Int.tdiv (add32 (height : Int) 5) 6).toNat = (height + 5) / 6 := by
  have h₁ := height_le_of_fit hw hfit
  have h₂ : add32 (height : Int) 5 = ((height + 5 : Nat) : Int) :=
    add32_natCast height 5 (by omega)
  rw [h₂]
  rfl

/-- When the largest index of the buffer is in the range of `int`, `escape` with `int`
indices and checked reads returns what `escape` returns. -/
theorem escapeChecked_eq {width height : Nat} {pixels : List Nat} (hw : 0 < width)
    (hlen : pixels.length = width * height * 4) (hfit : width * height * 4 - 1 ≤ INT_MAX) :
    escapeChecked width height pixels = escape width height pixels := by
  unfold escapeChecked escape
  rw [bands32_eq hw hfit]
  exact bandLoopChecked_eq ((height + 5) / 6) (fun ny hny => bandChecked_eq hw hlen hfit hny)
    _ 0 _ (by omega)

/-! ## An index outside the range of `int` -/

theorem collectFromChecked_none {width height : Nat} {pixels : List Nat} {y x : Nat}
    (hx : collectColumnChecked width height pixels y x 6 0 = none) :
    ∀ n x₀, x₀ ≤ x → x < x₀ + n → collectFromChecked width height pixels y n x₀ = none := by
  intro n
  induction n with
  | zero => intro x₀ h₁ h₂; omega
  | succ n ih =>
    intro x₀ h₁ h₂
    rw [collectFromChecked]
    by_cases hxx : x₀ = x
    · rw [hxx, hx]
      rfl
    · rw [ih (x₀ + 1) (by omega) (by omega)]
      cases collectColumnChecked width height pixels y x₀ 6 0 with
      | none => rfl
      | some column => rfl

theorem mem_readsFrom_of {width height y x : Nat} {p : Int}
    (hp : p ∈ readsColumn width height y x 6 0) :
    ∀ n x₀, x₀ ≤ x → x < x₀ + n → p ∈ readsFrom width height y n x₀ := by
  intro n
  induction n with
  | zero => intro x₀ h₁ h₂; omega
  | succ n ih =>
    intro x₀ h₁ h₂
    simp only [readsFrom, List.mem_append]
    by_cases hxx : x₀ = x
    · left; rw [hxx]; exact hp
    · right; exact ih (x₀ + 1) (by omega) (by omega)

theorem wellFormed_largeBuffer : WellFormed 536870913 1 largeBuffer := by
  refine ⟨by decide, by decide, by decide, by decide, ?_, ?_⟩
  · unfold largeBuffer
    rw [List.length_replicate]
  · intro b hb
    unfold largeBuffer at hb
    rw [List.eq_of_mem_replicate hb]
    decide

/-- In the last column of the 536870913 × 1 image the `int` index is `-2 ^ 31`. -/
theorem readsColumn_large :
    readsColumn 536870913 1 0 536870912 6 0 =
      [-2147483648, -2147483647, -2147483646, -2147483645] := by
  decide

theorem collectColumnChecked_large :
    collectColumnChecked 536870913 1 largeBuffer 0 536870912 6 0 = none := by
  decide

theorem collectChecked_large : collectChecked 536870913 1 largeBuffer (0 * 6) = none :=
  collectFromChecked_none collectColumnChecked_large 536870913 0 (by decide) (by decide)

theorem bandChecked_large : bandChecked 536870913 1 largeBuffer 0 = none := by
  unfold bandChecked
  simp only [collectChecked_large, Option.bind_eq_bind, Option.none_bind]

theorem escapeChecked_large : escapeChecked 536870913 1 largeBuffer = none := by
  unfold escapeChecked
  rw [show (Int.tdiv (add32 ((1 : Nat) : Int) 5) 6).toNat = 0 + 1 from by decide]
  rw [bandLoopChecked, bandChecked_large]
  rfl

/-! ## The run-length rule -/

theorem columnCalls_eq (end_cpit : List ColorPos) : ∀ (n x : Nat) (st : ColumnState),
    columnCalls end_cpit n x st =
      rleCalls (columnVals end_cpit n x st.cpit) st.val0 st.cnt := by
  intro n
  induction n with
  | zero => intro x st; rfl
  | succ n ih =>
    intro x st
    simp only [columnCalls, columnVals, rleCalls, ih]
    by_cases h : st.cnt = 0 ∨ (scanColumn end_cpit x st.cpit 0).2 + 63 = st.val0
    · simp only [h, if_true, columnStep]
    · simp only [h, if_false, columnStep]

theorem iteration_groups {width height : Nat} {pixels : List Nat} {y : Nat}
    (hw : width ≤ INT_MAX) (pre : List Colour) (c : Colour) (cs : List Colour)
    (hpw : (pre ++ c :: cs).Pairwise Colour.lt)
    (hmem : ∀ d ∈ pre ++ c :: cs, d ∈ bandColours width height pixels y) :
    ∃ c₀ rest, groups width height pixels y (c :: cs) =
        c₀ :: (rest ++ groups width height pixels y cs) ∧
      upper_bound (groups width height pixels y (pre ++ c :: cs))
        ⟨c₀.red, c₀.green, c₀.blue, INT_MAX, INT_MAX⟩ = groups width height pixels y cs ∧
      (columnLoop (groups width height pixels y cs) width 0
        ⟨c₀ :: (rest ++ groups width height pixels y cs), 0, 0, ""⟩).cpit =
          groups width height pixels y cs ∧
      columnVals (groups width height pixels y cs) width 0
        (c₀ :: (rest ++ groups width height pixels y cs)) =
          (pixelRun width height pixels y c).vals := by
  obtain ⟨c₀, rest, hseg, hcol⟩ := segments_ne_nil (hmem c (by simp))
  have hS : groups width height pixels y (pre ++ c :: cs) =
      (groups width height pixels y pre ++ segments width height pixels y c width 0) ++
        groups width height pixels y cs := by
    simp only [groups_append, groups, List.append_assoc]
  have hcur : c₀ :: (rest ++ groups width height pixels y cs) =
      segments width height pixels y c width 0 ++ groups width height pixels y cs := by
    rw [hseg]; rfl
  have hc : (c₀.red, c₀.green, c₀.blue) = c := hcol
  refine ⟨c₀, rest, by rw [hcur]; rfl, ?_, ?_, ?_⟩
  · rw [hS]
    apply upper_bound_append
    · intro a ha
      rw [List.mem_append] at ha
      rcases ha with ha | ha
      · have hac := ((mem_groups a pre).mp ha).1
        have hlt : Colour.lt a.colour c :=
          (List.pairwise_append.mp hpw).2.2 _ hac c (by simp)
        rw [← hc] at hlt
        unfold Colour.lt ColorPos.colour at hlt
        unfold ColorPos.lt
        simp only at hlt ⊢
        omega
      · have ha' := (mem_segments a width 0).mp ha
        have hac := ha'.1
        rw [← hc] at hac
        simp only [ColorPos.colour, Prod.mk.injEq] at hac
        unfold ColorPos.lt
        simp only [INT_MAX] at hw ⊢
        omega
    · intro a ha
      have ham : a ∈ groups width height pixels y cs := List.mem_of_mem_head? ha
      have hac := ((mem_groups a cs).mp ham).1
      have hlt : Colour.lt c a.colour :=
        (List.pairwise_cons.mp (List.pairwise_append.mp hpw).2.1).1 _ hac
      rw [← hc] at hlt
      unfold Colour.lt ColorPos.colour at hlt
      unfold ColorPos.lt
      simp only at hlt ⊢
      omega
  · rw [hcur, columnLoop_segments]
  · rw [hcur, columnVals_segments, pixelRun, List.range_eq_range']

theorem runSteps_groups {width height : Nat} {pixels : List Nat} {y : Nat}
    (hw : width ≤ INT_MAX) :
    ∀ (cs pre : List Colour) (fuel : Nat), (pre ++ cs).Pairwise Colour.lt →
      (∀ c ∈ pre ++ cs, c ∈ bandColours width height pixels y) → cs.length ≤ fuel →
      runSteps width (groups width height pixels y (pre ++ cs)) fuel
          (groups width height pixels y cs) =
        groupSteps width height pixels y cs := by
  intro cs
  induction cs with
  | nil =>
    intro pre fuel _ _ _
    cases fuel <;> rfl
  | cons c cs ih =>
    intro pre fuel hpw hmem hfuel
    obtain ⟨fuel, rfl⟩ : ∃ f, fuel = f + 1 := ⟨fuel - 1, by simp at hfuel; omega⟩
    obtain ⟨c₀, rest, hgc, hub, hcp, hvals⟩ := iteration_groups hw pre c cs hpw hmem
    have hpre : pre ++ c :: cs = (pre ++ [c]) ++ cs := by simp
    have hih := ih (pre ++ [c]) fuel (by rw [← hpre]; exact hpw)
      (by rw [← hpre]; exact hmem) (by simp at hfuel; omega)
    rw [← hpre] at hih
    simp only [groupSteps]
    rw [hgc]
    simp only [runSteps, hub, hcp, hih, columnCalls_eq, hvals]

theorem groupSteps_spec {width height : Nat} {pixels : List Nat} {y : Nat} :
    ∀ cs : List Colour, (∀ c ∈ cs, c ∈ bandColours width height pixels y) →
      ∀ s ∈ groupSteps width height pixels y cs,
        s.next = s.end_cpit ∧ s.next.length < s.cpit.length ∧
        ∃ c ∈ cs, s.calls = rleCalls (pixelRun width height pixels y c).vals 0 0 := by
  intro cs
  induction cs with
  | nil => intro _ s hs; simp [groupSteps] at hs
  | cons c cs ih =>
    intro hcs s hs
    simp only [groupSteps, List.mem_cons] at hs
    rcases hs with hs | hs
    · obtain ⟨c₀, rest, hseg, _⟩ := segments_ne_nil (hcs c (by simp))
      subst hs
      refine ⟨rfl, ?_, c, by simp, rfl⟩
      simp only [groups, hseg, List.length_append, List.length_cons]
      omega
    · obtain ⟨h₁, h₂, d, hd, h₃⟩ := ih (fun d hd => hcs d (by simp [hd])) s hs
      exact ⟨h₁, h₂, d, by simp [hd], h₃⟩

theorem groupSteps_length (width height : Nat) (pixels : List Nat) (y : Nat) :
    ∀ cs : List Colour, (groupSteps width height pixels y cs).length = cs.length := by
  intro cs
  induction cs with
  | nil => rfl
  | cons c cs ih => simp [groupSteps, ih]

theorem bandSteps_eq {width : Nat} (height : Nat) (pixels : List Nat) (ny : Nat)
    (hw : width ≤ INT_MAX) (fuel : Nat)
    (hfuel : (sort (collect width height pixels (ny * 6))).length ≤ fuel) :
    runSteps width (sort (collect width height pixels (ny * 6))) fuel
        (sort (collect width height pixels (ny * 6))) =
      groupSteps width height pixels (ny * 6) (bandColours width height pixels (ny * 6)) ∧
    emitRuns width (sort (collect width height pixels (ny * 6))) fuel
        (sort (collect width height pixels (ny * 6))) "" =
      some (runsText true (pixelRuns width height pixels ny)) := by
  have hlen := @length_le_groups width height pixels (ny * 6)
    (bandColours width height pixels (ny * 6)) (fun _ hc => hc)
  rw [sort_collect_eq] at hfuel ⊢
  have h₁ := @runSteps_groups width height pixels (ny * 6) hw
    (bandColours width height pixels (ny * 6)) [] fuel
    (by simpa using pairwise_bandColours width height pixels (ny * 6))
    (by simp) (by omega)
  have h₂ := @runs_groups width height pixels (ny * 6) hw
    (bandColours width height pixels (ny * 6)) [] fuel
    (by simpa using pairwise_bandColours width height pixels (ny * 6))
    (by simp) (by omega)
  simp only [List.nil_append] at h₁ h₂
  refine ⟨h₁, ?_⟩
  rw [h₂.2 ""]
  have : "" ++ runsText true (pixelRuns width height pixels ny) =
      runsText true (pixelRuns width height pixels ny) := by
    apply String.ext; simp [String.data_append]
  simp only [decide_True, pixelRuns] at this ⊢
  rw [this]

/-- C1, as the code behaves: for width 1, height 1 and the pixel (255, 0, 0, 255), `escape`
returns two fragments, the header `;1;1` and the band fragment `#0;2;100;0;0#0@-`: the palette
directive, the colour selection `#0` that `print_times` writes before the data of every call,
the data character `@` and the band advance `-`. -/
theorem C1_red_pixel :
    escape 1 1 redPixel = some [";1;1", "#0;2;100;0;0#0@-"] := by
  decide

/-- C1 as stated fails: the band fragment of the opaque red pixel is not `#0;2;100;0;0@-`. -/
theorem C1_red_pixel_counterexample :
    escape 1 1 redPixel ≠ some [";1;1", "#0;2;100;0;0@-"] := by
  decide

/-- C2, as the code behaves: on a well-formed input whose largest buffer index
`width * height * 4 - 1` is in the range of `int`, `escape` returns `1 + ⌈height / 6⌉`
fragments; fragment 0 is the header `;width;height`, and fragment `ny + 1` is the line of band
`ny`, whose last character is `-`. -/
theorem C2_fragments (width height : Nat) (pixels : List Nat)
    (hwf : WellFormed width height pixels) (hfit : width * height * 4 - 1 ≤ INT_MAX) :
    ∃ frags, escapeChecked width height pixels = some frags ∧
      frags.length = 1 + (height + 5) / 6 ∧
      (height ≤ 6 * ((height + 5) / 6) ∧ 6 * ((height + 5) / 6) < height + 6) ∧
      frags[0]? = some (";" ++ toString width ++ ";" ++ toString height) ∧
      ∀ ny, ny < (height + 5) / 6 →
        ∃ line, bandChecked width height pixels ny = some line ∧ frags[ny + 1]? = some line ∧
          line.data.getLast? = some '-' := by
  rw [escapeChecked_eq hwf.width_pos hwf.length_eq hfit]
  refine ⟨_, escape_eq height pixels hwf.width_le, ?_, ?_, by simp [header], ?_⟩
  · simp only [List.length_cons, List.length_map, List.length_range]
    omega
  · omega
  · intro ny hny
    rw [bandChecked_eq hwf.width_pos hwf.length_eq hfit hny]
    refine ⟨_, band_eq height pixels ny hwf.width_le, ?_, string_data_getLast _⟩
    simp [List.getElem?_range hny]

/-- C2 at the 3 × 2 image `threeColours`. -/
theorem C2_fragments_witness :
    WellFormed 3 2 threeColours ∧ 3 * 2 * 4 - 1 ≤ INT_MAX ∧
    escapeChecked 3 2 threeColours = some [";3;2",
      "#0;2;0;0;100#0A#0?#0@$#0;2;0;100;0#0?#0B#0?$#0;2;100;0;0#0@#0??-"] ∧
    ∃ frags, escapeChecked 3 2 threeColours = some frags ∧
      frags.length = 1 + (2 + 5) / 6 ∧
      (2 ≤ 6 * ((2 + 5) / 6) ∧ 6 * ((2 + 5) / 6) < 2 + 6) ∧
      frags[0]? = some (";" ++ toString 3 ++ ";" ++ toString 2) ∧
      ∀ ny, ny < (2 + 5) / 6 →
        ∃ line, bandChecked 3 2 threeColours ny = some line ∧ frags[ny + 1]? = some line ∧
          line.data.getLast? = some '-' :=
  ⟨⟨by decide, by decide, by decide, by decide, by decide, by decide⟩, by decide, by decide,
    C2_fragments 3 2 threeColours
      ⟨by decide, by decide, by decide, by decide, by decide, by decide⟩ (by decide)⟩

/-- C2 as stated fails: width 536870913, height 1 and a buffer of 536870913 × 1 × 4 bytes
meet the precondition, but the index of the pixel in column 536870912 is `2 ^ 31`, outside the
range of `int`: the `int` computed is `-2 ^ 31`, the read is outside the buffer, and `escape`
returns no fragments. -/
theorem C2_fragments_counterexample :
    WellFormed 536870913 1 largeBuffer ∧
      largeBuffer.length = 536870913 * 1 * 4 ∧
      ¬ ∃ frags, escapeChecked 536870913 1 largeBuffer = some frags := by
  refine ⟨wellFormed_largeBuffer, wellFormed_largeBuffer.length_eq, ?_⟩
  rintro ⟨frags, h⟩
  rw [escapeChecked_large] at h
  exact Option.noConfusion h

/-- C9, as the code behaves: for a channel value `c` in 0..255 and an alpha `a` in 1..255 the
scaled value is `⌊c * a * 100 / 65025⌋`, except at `c = 153`, `a = 221`, where the
single-precision product is just below 52 and truncates to 51; in particular (255, 255) gives
100, (128, 255) gives 50 and (254, 255) gives 99. -/
theorem C9_scaled_value (c a : Nat) (hc : c ≤ 255) (ha₁ : 1 ≤ a) (ha₂ : a ≤ 255) :
    scale c a = (if c = 153 ∧ a = 221 then 51 else c * a * 100 / 65025) ∧
    (scale 255 255 = 100 ∧ scale 128 255 = 50 ∧ scale 254 255 = 99) := by
  have _ := ha₁
  exact ⟨scale_eq (by omega) (by omega), by decide⟩

/-- C9 at `c = 200`, `a = 100`. -/
theorem C9_scaled_value_witness :
    (scale 200 100 = if 200 = 153 ∧ 100 = 221 then 51 else 200 * 100 * 100 / 65025) ∧
    (scale 255 255 = 100 ∧ scale 128 255 = 50 ∧ scale 254 255 = 99) :=
  C9_scaled_value 200 100 (by decide) (by decide) (by decide)

/-- C9 as stated fails: at `c = 153`, `a = 221` the quotient `c * a * 100 / 65025` is 52 and
the encoder records 51. -/
theorem C9_scaled_value_counterexample :
    153 * 221 * 100 / 65025 = 52 ∧ scale 153 221 = 51 ∧
      scale 153 221 ≠ 153 * 221 * 100 / 65025 := by
  decide

/-- C11: `Sixel::print` writes to the sink the start marker, the bytes ESC, `P`, `q`, `"`, `1`,
`;`, `1`, then every fragment of the image as it is and in order, then the end marker, the
bytes ESC and backslash, and nothing else. -/
theorem C11_print (os_ : String) (src : List String) :
    (print os_ src).data =
      os_.data ++ [Char.ofNat 27, 'P', 'q', '"', '1', ';', '1'] ++
        (src.map String.data).flatten ++ [Char.ofNat 27, Char.ofNat 92] := by
  simp [print, writeAll_data, enter, exit, String.data_append]

/-- C14, as the code behaves: on a well-formed input whose largest buffer index
`width * height * 4 - 1` is in the range of `int`, every index at which the encoder reads the
buffer, as the `int` computed, is `((y + i) * width + x) * 4 + k` with `x < width`,
`y + i < height` and `k ≤ 3`, hence below `width * height * 4`, the length of the buffer, so
that the checked read returns the byte; the collect phase with checked reads returns the
records of the unchecked one, in every band, the last one included. -/
theorem C14_reads_in_bounds (width height : Nat) (pixels : List Nat)
    (hwf : WellFormed width height pixels) (hfit : width * height * 4 - 1 ≤ INT_MAX)
    (ny : Nat) (hny : ny < (height + 5) / 6) :
    (∀ p ∈ reads width height (ny * 6), ∃ x i k, x < width ∧ i < 6 ∧ ny * 6 + i < height ∧
      k ≤ 3 ∧ p = ((((ny * 6 + i) * width + x) * 4 + k : Nat) : Int) ∧
      ((ny * 6 + i) * width + x) * 4 + k < width * height * 4 ∧
      ((ny * 6 + i) * width + x) * 4 + k < pixels.length ∧
      pixelChecked pixels p = some (pixel pixels (((ny * 6 + i) * width + x) * 4 + k))) ∧
    collectChecked width height pixels (ny * 6) = some (collect width height pixels (ny * 6)) := by
  have h₁ := height_le_of_fit hwf.width_pos hfit
  have h₂ := base_row_le hny
  refine ⟨?_, collectChecked_eq hwf.width_pos hwf.length_eq hfit hny⟩
  intro p hp
  obtain ⟨x, i, k, _, hx, hi, hrow, hk, hpe⟩ :=
    mem_readsFrom hfit (by omega) p width 0 (by omega) hp
  have hlt : ((ny * 6 + i) * width + x) * 4 + k < width * height * 4 :=
    index_lt (by omega) hrow hk
  have hlen : ((ny * 6 + i) * width + x) * 4 + k < pixels.length := by
    rw [hwf.length_eq]; exact hlt
  refine ⟨x, i, k, by omega, hi, hrow, hk, hpe, hlt, hlen, ?_⟩
  rw [hpe]
  exact pixelChecked_eq hlen

/-- C14 at the second band, of one row, of the 1 × 7 image `whiteColumn`. -/
theorem C14_reads_in_bounds_witness :
    WellFormed 1 7 whiteColumn ∧ 1 * 7 * 4 - 1 ≤ INT_MAX ∧ 1 < (7 + 5) / 6 ∧
    reads 1 7 (1 * 6) = [24, 25, 26, 27] ∧
    (∀ p ∈ reads 1 7 (1 * 6), ∃ x i k, x < 1 ∧ i < 6 ∧ 1 * 6 + i < 7 ∧
      k ≤ 3 ∧ p = ((((1 * 6 + i) * 1 + x) * 4 + k : Nat) : Int) ∧
      ((1 * 6 + i) * 1 + x) * 4 + k < 1 * 7 * 4 ∧
      ((1 * 6 + i) * 1 + x) * 4 + k < whiteColumn.length ∧
      pixelChecked whiteColumn p = some (pixel whiteColumn (((1 * 6 + i) * 1 + x) * 4 + k))) ∧
    collectChecked 1 7 whiteColumn (1 * 6) = some (collect 1 7 whiteColumn (1 * 6)) :=
  ⟨⟨by decide, by decide, by decide, by decide, by decide, by decide⟩, by decide, by decide,
    by decide,
    C14_reads_in_bounds 1 7 whiteColumn
      ⟨by decide, by decide, by decide, by decide, by decide, by decide⟩ (by decide) 1
      (by decide)⟩

/-- C14 as stated fails: width 536870913, height 1 and a buffer of 536870913 × 1 × 4 bytes
meet the precondition, but for the pixel in column 536870912 of the one band the index
`2 ^ 31`, which is below `width * height * 4`, is outside the range of `int`: the encoder
reads at the `int` computed, `-2 ^ 31`, which is outside the buffer, and the collect phase
with checked reads fails. -/
theorem C14_reads_in_bounds_counterexample :
    WellFormed 536870913 1 largeBuffer ∧ 0 < (1 + 5) / 6 ∧
      ((0 * 6 + 0) * 536870913 + 536870912) * 4 + 0 < 536870913 * 1 * 4 ∧
      INT_MAX < ((0 * 6 + 0) * 536870913 + 536870912) * 4 + 0 ∧
      readsColumn 536870913 1 (0 * 6) 536870912 6 0 =
        [-2147483648, -2147483647, -2147483646, -2147483645] ∧
      (-2147483648 : Int) ∈ reads 536870913 1 (0 * 6) ∧
      pixelChecked largeBuffer (-2147483648) = none ∧
      collectChecked 536870913 1 largeBuffer (0 * 6) = none := by
  refine ⟨wellFormed_largeBuffer, by decide, by decide, by decide, readsColumn_large, ?_, ?_,
    collectChecked_large⟩
  · have h : (-2147483648 : Int) ∈ readsColumn 536870913 1 0 536870912 6 0 := by
      rw [readsColumn_large]
      exact List.mem_cons_self _ _
    exact mem_readsFrom_of h 536870913 0 (by decide) (by decide)
  · unfold pixelChecked
    rw [if_pos (by decide)]

/-- C17, as the code behaves: the encoder is total on the well-formed inputs whose largest
buffer index `width * height * 4 - 1` is in the range of `int`. For every band, the collect
phase reads inside the buffer; each iteration of the loop over the colour runs ends with the
iterator at the end of the run that the boundary search found, past at least one record, so
the number of records left decreases; with as many units of fuel as there are records, or
more, the loop ends, with the same text; so the band has its line and `escape` returns its
fragments. -/
theorem C17_total (width height : Nat) (pixels : List Nat)
    (hwf : WellFormed width height pixels) (hfit : width * height * 4 - 1 ≤ INT_MAX)
    (ny : Nat) (hny : ny < (height + 5) / 6) :
    ∃ collected, collectChecked width height pixels (ny * 6) = some collected ∧
      (∀ s ∈ runSteps width (sort collected) (sort collected).length (sort collected),
        s.next = s.end_cpit ∧ s.next.length < s.cpit.length) ∧
      (∃ text, ∀ fuel, (sort collected).length ≤ fuel →
        emitRuns width (sort collected) fuel (sort collected) "" = some text) ∧
      (∃ line, bandChecked width height pixels ny = some line) ∧
      (∃ frags, escapeChecked width height pixels = some frags) := by
  rw [escapeChecked_eq hwf.width_pos hwf.length_eq hfit,
    bandChecked_eq hwf.width_pos hwf.length_eq hfit hny]
  refine ⟨_, collectChecked_eq hwf.width_pos hwf.length_eq hfit hny, ?_,
    ⟨_, fun fuel hfuel => (bandSteps_eq height pixels ny hwf.width_le fuel hfuel).2⟩,
    ⟨_, band_eq height pixels ny hwf.width_le⟩, ⟨_, escape_eq height pixels hwf.width_le⟩⟩
  intro s hs
  rw [(bandSteps_eq height pixels ny hwf.width_le _ (le_refl _)).1] at hs
  obtain ⟨h₁, h₂, _⟩ := groupSteps_spec _ (fun _ hc => hc) s hs
  exact ⟨h₁, h₂⟩

/-- C17 at the band of the 3 × 2 image `threeColours`, whose loop over the colour runs has
three iterations. -/
theorem C17_total_witness :
    WellFormed 3 2 threeColours ∧ 3 * 2 * 4 - 1 ≤ INT_MAX ∧
    (runSteps 3 (sort (collect 3 2 threeColours (0 * 6)))
      (sort (collect 3 2 threeColours (0 * 6))).length
      (sort (collect 3 2 threeColours (0 * 6)))).length = 3 ∧
    ∃ collected, collectChecked 3 2 threeColours (0 * 6) = some collected ∧
      (∀ s ∈ runSteps 3 (sort collected) (sort collected).length (sort collected),
        s.next = s.end_cpit ∧ s.next.length < s.cpit.length) ∧
      (∃ text, ∀ fuel, (sort collected).length ≤ fuel →
        emitRuns 3 (sort collected) fuel (sort collected) "" = some text) ∧
      (∃ line, bandChecked 3 2 threeColours 0 = some line) ∧
      (∃ frags, escapeChecked 3 2 threeColours = some frags) :=
  ⟨⟨by decide, by decide, by decide, by decide, by decide, by decide⟩, by decide, by decide,
    C17_total 3 2 threeColours
      ⟨by decide, by decide, by decide, by decide, by decide, by decide⟩ (by decide) 0
      (by decide)⟩

/-- C17 as stated fails: width 536870913, height 1 and a buffer of 536870913 × 1 × 4 bytes
meet the precondition, but the index of the pixel in column 536870912 is `2 ^ 31`, outside the
range of `int`: the read at the `int` computed is outside the buffer, so the collect phase of
the one band, the band and `escape` give no result. -/
theorem C17_total_counterexample :
    WellFormed 536870913 1 largeBuffer ∧ 0 < (1 + 5) / 6 ∧
      collectChecked 536870913 1 largeBuffer (0 * 6) = none ∧
      bandChecked 536870913 1 largeBuffer 0 = none ∧
      escapeChecked 536870913 1 largeBuffer = none :=
  ⟨wellFormed_largeBuffer, by decide, collectChecked_large, bandChecked_large,
    escapeChecked_large⟩

end TinySixel
